import Mathlib

/-!
Verification of the CLEAN spectral decomposition algorithm (clean/clean.py).

The numeric library primitives used by the source (np.fft.fft, np.fft.ifft,
np.fft.fftfreq, scipy.signal.hilbert, np.argmax, np.angle, np.abs) are
modelled over exact complex arithmetic with their standard mathematical
semantics.  The iterative `while` loop of `extract_CLEAN` has no termination
guarantee in the source, so it is modelled with explicit fuel: `none` means
the fuel ran out before the stopping condition fired.  numpy's broadcasting
rules for `residue - reconstructed` (element-wise for equal lengths,
broadcast when one side has length one, error otherwise) are modelled by
`broadcastSub`; the broadcasting `ValueError` is the only error the source
can raise at that point and is represented by `CleanError.broadcastMismatch`.
`CleanError.shapeMismatch` is the error kind named by the specification's
error taxonomy; the source contains no length validation, and the
development proves it is never produced.
-/

open Complex

namespace Clean

/-- Model of `np.fft.fft`: bin `k` is `∑ₙ x[n]·exp(-2πi·k·n/N)`. -/
noncomputable def fft (x : List ℂ) : List ℂ :=
  (List.range x.length).map fun (k : ℕ) =>
    ∑ n ∈ Finset.range x.length,
      x.getD n 0 * Complex.exp (-(2 * (Real.pi : ℂ) * Complex.I * k * n) / x.length)

/-- Model of `np.fft.ifft`: sample `n` is `(1/N)·∑ₖ X[k]·exp(2πi·k·n/N)`. -/
noncomputable def ifft (X : List ℂ) : List ℂ :=
  (List.range X.length).map fun (n : ℕ) =>
    (X.length : ℂ)⁻¹ *
      ∑ k ∈ Finset.range X.length,
        X.getD k 0 * Complex.exp ((2 * (Real.pi : ℂ) * Complex.I * k * n) / X.length)

/-- Model of `np.fft.fftfreq n d`: frequency `k/(n·d)` for `k` below the
Nyquist bin (`2k < n`), and the corresponding negative frequency
`(k-n)/(n·d)` for the remaining bins. -/
noncomputable def fftfreq (n : ℕ) (d : ℝ) : List ℝ :=
  (List.range n).map fun (k : ℕ) =>
    if 2 * k < n then (k : ℝ) / (n * d) else ((k : ℝ) - n) / (n * d)

/-- Spectral weights of `scipy.signal.hilbert`: DC (and the Nyquist bin for
even length) unscaled, strictly positive frequencies doubled, negative
frequencies zeroed. -/
noncomputable def hilbertWeight (N k : ℕ) : ℝ :=
  if k = 0 then 1 else if 2 * k < N then 2 else if 2 * k = N then 1 else 0

/-- Model of `scipy.signal.hilbert`: the analytic signal
`ifft(weights ⊙ fft(x))`. -/
noncomputable def hilbert (x : List ℝ) : List ℂ :=
  ifft ((List.range x.length).map fun k =>
    (hilbertWeight x.length k : ℂ) * (fft (x.map fun (r : ℝ) => (r : ℂ))).getD k 0)

/-- Model of `np.argmax`: the first index attaining the maximum value
(numpy keeps the earliest index on ties).  numpy raises on an empty array;
the model returns 0 there, a case no claim exercises. -/
noncomputable def argmax : List ℝ → ℕ
  | [] => 0
  | [_] => 0
  | v :: w :: rest =>
    if (w :: rest).getD (argmax (w :: rest)) 0 ≤ v then 0 else argmax (w :: rest) + 1

/-- `np.argmax(abs(hilbert x))`: index of the peak of the envelope. -/
noncomputable def peakIndex (x : List ℝ) : ℕ :=
  argmax ((hilbert x).map Complex.abs)

/-- The analytic-signal value at the envelope peak. -/
noncomputable def peakValue (x : List ℝ) : ℂ :=
  (hilbert x).getD (peakIndex x) 0

/-- `np.fft.ifft(residue).real` (line 92-94 of clean.py). -/
noncomputable def residueTime (residue : List ℂ) : List ℝ :=
  (ifft residue).map Complex.re

/-- Lines 111-114 of clean.py: `L/2 + 1` for even length, `ceil(L/2)` for
odd length. -/
def nyquistIndex (L : ℕ) : ℕ :=
  if L % 2 = 0 then L / 2 + 1 else (L + 1) / 2

/-- Lines 115-118 of clean.py: the positive-frequency half spectrum
`amplitude * original_spectrum[:nyq] * exp(1j*(-2π*omega[:nyq]*delay + phase))`. -/
noncomputable def componentSpectrum (original_spectrum : List ℂ) (omega : List ℝ)
    (amplitude delay phase : ℝ) : List ℂ :=
  ((original_spectrum.take (nyquistIndex original_spectrum.length)).zip
      (omega.take (nyquistIndex original_spectrum.length))).map fun p =>
    (amplitude : ℂ) * p.1 *
      Complex.exp (Complex.I * ((-(2 * Real.pi * p.2 * delay) + phase : ℝ) : ℂ))

/-- Lines 119-125 of clean.py: the double-sided spectrum, mirroring the
conjugated reversed `half[1:-1]` (even length) or `half[1:]` (odd length). -/
noncomputable def reconstructSpectrum (original_spectrum : List ℂ) (omega : List ℝ)
    (amplitude delay phase : ℝ) : List ℂ :=
  let cs := componentSpectrum original_spectrum omega amplitude delay phase
  if original_spectrum.length % 2 = 0 then
    cs ++ (((cs.map (starRingEnd ℂ)).drop 1).dropLast).reverse
  else
    cs ++ ((cs.map (starRingEnd ℂ)).drop 1).reverse

/-- Error kinds.  `shapeMismatch` is the specification's name for rejecting
signals of different lengths; the source never raises it.
`broadcastMismatch` models numpy's broadcasting `ValueError` in
`residue - reconstructed`. -/
inductive CleanError where
  | shapeMismatch : CleanError
  | broadcastMismatch : CleanError

/-- numpy subtraction of two 1-d arrays with broadcasting. -/
def broadcastSub (xs ys : List ℂ) : Option (List ℂ) :=
  if xs.length = ys.length then some (List.zipWith (· - ·) xs ys)
  else if xs.length = 1 then some (ys.map fun y => xs.getD 0 0 - y)
  else if ys.length = 1 then some (xs.map fun x => x - ys.getD 0 0)
  else none

/-- The loop state of `extract_CLEAN`: the four accumulator lists, the
residual spectrum, and the variables `amplitude` / `amp_max` driving the
stopping condition.  `iterations` is a ghost counter of executed loop
bodies, used only to state claims. -/
structure LoopState where
  amplitudes : List ℝ
  delays : List ℝ
  phases : List ℝ
  components : List (List ℂ)
  residue : List ℂ
  amplitude : ℝ
  amp_max : ℝ
  iterations : ℕ

/-- The per-call read-only context: reference spectrum, frequency vector,
reference analytic signal and its peak index (lines 72-76), plus the two
scalar parameters. -/
structure Ctx where
  original_spectrum : List ℂ
  omega : List ℝ
  original_hilbert : List ℂ
  original_argpeak : ℕ
  delta_t : ℝ
  threshold : ℝ

/-- One iteration of the decomposition loop (lines 92-130). -/
noncomputable def cleanBody (c : Ctx) (s : LoopState) : Except CleanError LoopState :=
  let r_t := residueTime s.residue
  let amplitude := Complex.abs (peakValue r_t)
  let delay := ((peakIndex r_t : ℝ) - (c.original_argpeak : ℝ)) * c.delta_t
  let phase := Complex.arg (peakValue r_t) -
    Complex.arg (c.original_hilbert.getD c.original_argpeak 0) + 2 * Real.pi
  let reconstructed := reconstructSpectrum c.original_spectrum c.omega amplitude delay phase
  match broadcastSub s.residue reconstructed with
  | none => .error .broadcastMismatch
  | some newResidue =>
    .ok { amplitudes := s.amplitudes ++ [amplitude]
          delays := s.delays ++ [delay]
          phases := s.phases ++ [phase]
          components := s.components ++ [ifft reconstructed]
          residue := newResidue
          amplitude := amplitude
          amp_max := if s.amplitudes.length = 0 then amplitude else s.amp_max
          iterations := s.iterations + 1 }

/-- The `while amplitude > threshold*amp_max` loop, with fuel.  `none`
means the fuel ran out with the condition still true. -/
noncomputable def cleanLoop (c : Ctx) : ℕ → LoopState → Option (Except CleanError LoopState)
  | 0, s =>
    if s.amplitude > c.threshold * s.amp_max then none else some (.ok s)
  | fuel + 1, s =>
    if s.amplitude > c.threshold * s.amp_max then
      match cleanBody c s with
      | .error e => some (.error e)
      | .ok s1 => cleanLoop c fuel s1
    else some (.ok s)

/-- The initial loop state: residue is the measured spectrum, and the
sentinel values `amplitude = 1`, `amp_max = 2` (lines 85-89). -/
noncomputable def initState (measured_signal : List ℝ) : LoopState :=
  { amplitudes := []
    delays := []
    phases := []
    components := []
    residue := fft (measured_signal.map fun (r : ℝ) => (r : ℂ))
    amplitude := 1
    amp_max := 2
    iterations := 0 }

/-- The context built by lines 72-76 of clean.py. -/
noncomputable def mkCtx (original_signal : List ℝ) (delta_t threshold : ℝ) : Ctx :=
  { original_spectrum := fft (original_signal.map fun (r : ℝ) => (r : ℂ))
    omega := fftfreq original_signal.length delta_t
    original_hilbert := hilbert original_signal
    original_argpeak := argmax ((hilbert original_signal).map Complex.abs)
    delta_t := delta_t
    threshold := threshold }

/-- `extract_CLEAN` up to but excluding the final truncation: the state in
which the loop stopped. -/
noncomputable def extract_CLEAN_trace (measured_signal original_signal : List ℝ)
    (delta_t threshold : ℝ) (fuel : ℕ) : Option (Except CleanError LoopState) :=
  cleanLoop (mkCtx original_signal delta_t threshold) fuel (initState measured_signal)

/-- The full `extract_CLEAN`: run the loop, then drop the last appended
entry of every accumulator (`[:-1]`, lines 131-132). -/
noncomputable def extract_CLEAN (measured_signal original_signal : List ℝ)
    (delta_t threshold : ℝ) (fuel : ℕ) :
    Option (Except CleanError (List ℝ × List ℝ × List ℝ × List (List ℂ))) :=
  match extract_CLEAN_trace measured_signal original_signal delta_t threshold fuel with
  | none => none
  | some (.error e) => some (.error e)
  | some (.ok s) =>
    some (.ok (s.amplitudes.dropLast, s.delays.dropLast, s.phases.dropLast,
      s.components.dropLast))

/-- Projection: the amplitudes of a successful run (else `[]`). -/
def resultAmplitudes :
    Option (Except CleanError (List ℝ × List ℝ × List ℝ × List (List ℂ))) → List ℝ
  | some (.ok (as, _, _, _)) => as
  | _ => []

/-- Projection: the delays of a successful run (else `[]`). -/
def resultDelays :
    Option (Except CleanError (List ℝ × List ℝ × List ℝ × List (List ℂ))) → List ℝ
  | some (.ok (_, ds, _, _)) => ds
  | _ => []

/-- Projection: the phases of a successful run (else `[]`). -/
def resultPhases :
    Option (Except CleanError (List ℝ × List ℝ × List ℝ × List (List ℂ))) → List ℝ
  | some (.ok (_, _, ps, _)) => ps
  | _ => []

/-- Projection: the component waveforms of a successful run (else `[]`). -/
def resultComponents :
    Option (Except CleanError (List ℝ × List ℝ × List ℝ × List (List ℂ))) → List (List ℂ)
  | some (.ok (_, _, _, cs)) => cs
  | _ => []

/-! ### Structural lemmas about one loop iteration -/

/-- The amplitude computed by an iteration on residue `R`. -/
noncomputable def iterAmplitude (R : List ℂ) : ℝ :=
  Complex.abs (peakValue (residueTime R))

/-- The delay computed by an iteration on residue `R`. -/
noncomputable def iterDelay (c : Ctx) (R : List ℂ) : ℝ :=
  ((peakIndex (residueTime R) : ℝ) - (c.original_argpeak : ℝ)) * c.delta_t

/-- The phase computed by an iteration on residue `R`. -/
noncomputable def iterPhase (c : Ctx) (R : List ℂ) : ℝ :=
  Complex.arg (peakValue (residueTime R)) -
    Complex.arg (c.original_hilbert.getD c.original_argpeak 0) + 2 * Real.pi

/-- The double-sided spectrum reconstructed by an iteration on residue `R`. -/
noncomputable def iterReconstructed (c : Ctx) (R : List ℂ) : List ℂ :=
  reconstructSpectrum c.original_spectrum c.omega (iterAmplitude R) (iterDelay c R)
    (iterPhase c R)

lemma cleanBody_eq (c : Ctx) (s : LoopState) :
    cleanBody c s =
      match broadcastSub s.residue (iterReconstructed c s.residue) with
      | none => .error .broadcastMismatch
      | some newResidue =>
        .ok { amplitudes := s.amplitudes ++ [iterAmplitude s.residue]
              delays := s.delays ++ [iterDelay c s.residue]
              phases := s.phases ++ [iterPhase c s.residue]
              components := s.components ++ [ifft (iterReconstructed c s.residue)]
              residue := newResidue
              amplitude := iterAmplitude s.residue
              amp_max := if s.amplitudes.length = 0 then iterAmplitude s.residue
                         else s.amp_max
              iterations := s.iterations + 1 } := by
  simp only [cleanBody, iterAmplitude, iterDelay, iterPhase, iterReconstructed]

lemma cleanBody_ok (c : Ctx) (s s' : LoopState) (h : cleanBody c s = .ok s') :
    s'.amplitudes = s.amplitudes ++ [iterAmplitude s.residue] ∧
    s'.delays = s.delays ++ [iterDelay c s.residue] ∧
    s'.phases = s.phases ++ [iterPhase c s.residue] ∧
    s'.components = s.components ++ [ifft (iterReconstructed c s.residue)] ∧
    s'.amplitude = iterAmplitude s.residue ∧
    s'.amp_max = (if s.amplitudes.length = 0 then iterAmplitude s.residue else s.amp_max) ∧
    s'.iterations = s.iterations + 1 := by
  rw [cleanBody_eq] at h
  cases hbs : broadcastSub s.residue (iterReconstructed c s.residue) with
  | none => rw [hbs] at h; exact absurd h (by simp)
  | some R =>
    rw [hbs] at h
    cases h
    refine ⟨rfl, rfl, rfl, rfl, rfl, rfl, rfl⟩

lemma cleanBody_error (c : Ctx) (s : LoopState) (e : CleanError)
    (h : cleanBody c s = .error e) : e = .broadcastMismatch := by
  rw [cleanBody_eq] at h
  cases hbs : broadcastSub s.residue (iterReconstructed c s.residue) with
  | none => rw [hbs] at h; cases h; rfl
  | some R => rw [hbs] at h; exact absurd h (by simp)

/-! ### Structural lemmas about the loop -/

/-- If the stopping condition already fails, the loop returns without
executing any iteration, for every fuel value. -/
lemma cleanLoop_stop (c : Ctx) (fuel : ℕ) (s : LoopState)
    (h : ¬ s.amplitude > c.threshold * s.amp_max) :
    cleanLoop c fuel s = some (.ok s) := by
  cases fuel <;> simp [cleanLoop, h]

lemma cleanLoop_iterations_le (c : Ctx) :
    ∀ fuel (s s' : LoopState), cleanLoop c fuel s = some (.ok s') →
      s.iterations ≤ s'.iterations := by
  intro fuel
  induction fuel with
  | zero =>
    intro s s' h
    by_cases hc : s.amplitude > c.threshold * s.amp_max
    · simp [cleanLoop, hc] at h
    · simp [cleanLoop, hc] at h
      subst h
      exact le_refl _
  | succ n ih =>
    intro s s' h
    by_cases hc : s.amplitude > c.threshold * s.amp_max
    · simp only [cleanLoop, if_pos hc] at h
      cases hb : cleanBody c s with
      | error e => rw [hb] at h; simp at h
      | ok s1 =>
        rw [hb] at h
        have h1 := (cleanBody_ok c s s1 hb).2.2.2.2.2.2
        have := ih s1 s' h
        omega
    · simp only [cleanLoop, if_neg hc] at h
      have hss : s = s' := Except.ok.inj (Option.some.inj h)
      subst hss
      exact le_refl _

/-- Accumulator lists all have length equal to the executed iteration
count, along any run of the loop. -/
lemma cleanLoop_lengths (c : Ctx) :
    ∀ fuel (s s' : LoopState), cleanLoop c fuel s = some (.ok s') →
      s.amplitudes.length = s.iterations → s.delays.length = s.iterations →
      s.phases.length = s.iterations → s.components.length = s.iterations →
      s'.amplitudes.length = s'.iterations ∧ s'.delays.length = s'.iterations ∧
      s'.phases.length = s'.iterations ∧ s'.components.length = s'.iterations := by
  intro fuel
  induction fuel with
  | zero =>
    intro s s' h h1 h2 h3 h4
    by_cases hc : s.amplitude > c.threshold * s.amp_max
    · simp [cleanLoop, hc] at h
    · simp [cleanLoop, hc] at h
      subst h
      exact ⟨h1, h2, h3, h4⟩
  | succ n ih =>
    intro s s' h h1 h2 h3 h4
    by_cases hc : s.amplitude > c.threshold * s.amp_max
    · simp only [cleanLoop, if_pos hc] at h
      cases hb : cleanBody c s with
      | error e => rw [hb] at h; simp at h
      | ok s1 =>
        rw [hb] at h
        obtain ⟨e1, e2, e3, e4, _, _, e7⟩ := cleanBody_ok c s s1 hb
        exact ih s1 s' h (by simp [e1, e7, h1]) (by simp [e2, e7, h2])
          (by simp [e3, e7, h3]) (by simp [e4, e7, h4])
    · simp [cleanLoop, hc] at h
      subst h
      exact ⟨h1, h2, h3, h4⟩

/-- The accumulated amplitude list only grows along the loop. -/
lemma cleanLoop_amplitudes_grow (c : Ctx) :
    ∀ fuel (s s' : LoopState), cleanLoop c fuel s = some (.ok s') →
      ∃ t : List ℝ, s'.amplitudes = s.amplitudes ++ t := by
  intro fuel
  induction fuel with
  | zero =>
    intro s s' h
    by_cases hc : s.amplitude > c.threshold * s.amp_max
    · simp [cleanLoop, hc] at h
    · simp [cleanLoop, hc] at h
      subst h
      exact ⟨[], by simp⟩
  | succ n ih =>
    intro s s' h
    by_cases hc : s.amplitude > c.threshold * s.amp_max
    · simp only [cleanLoop, if_pos hc] at h
      cases hb : cleanBody c s with
      | error e => rw [hb] at h; simp at h
      | ok s1 =>
        rw [hb] at h
        obtain ⟨t, ht⟩ := ih s1 s' h
        obtain ⟨e1, _⟩ := cleanBody_ok c s s1 hb
        exact ⟨[iterAmplitude s.residue] ++ t, by rw [ht, e1, List.append_assoc]⟩
    · simp [cleanLoop, hc] at h
      subst h
      exact ⟨[], by simp⟩

/-- If the stopping condition fails on the sentinel-primed initial state
(`¬ 1 > threshold * 2`, i.e. `threshold ≥ 1/2`), the whole call returns
the untouched initial state and four empty sequences. -/
lemma extract_CLEAN_not_entered (m o : List ℝ) (dt thr : ℝ) (fuel : ℕ)
    (h : (1 : ℝ) / 2 ≤ thr) :
    extract_CLEAN_trace m o dt thr fuel = some (.ok (initState m)) ∧
    extract_CLEAN m o dt thr fuel = some (.ok ([], [], [], [])) := by
  have hc : ¬ (initState m).amplitude > (mkCtx o dt thr).threshold * (initState m).amp_max := by
    simp only [initState, mkCtx, not_lt]
    linarith
  have htr : extract_CLEAN_trace m o dt thr fuel = some (.ok (initState m)) :=
    cleanLoop_stop _ fuel _ hc
  refine ⟨htr, ?_⟩
  rw [extract_CLEAN, htr]
  simp [initState]

/-- The loop never produces a `shapeMismatch` error. -/
lemma cleanLoop_no_shapeMismatch (c : Ctx) :
    ∀ fuel (s : LoopState), cleanLoop c fuel s ≠ some (.error .shapeMismatch) := by
  intro fuel
  induction fuel with
  | zero =>
    intro s h
    by_cases hc : s.amplitude > c.threshold * s.amp_max <;> simp [cleanLoop, hc] at h
  | succ n ih =>
    intro s h
    by_cases hc : s.amplitude > c.threshold * s.amp_max
    · simp only [cleanLoop, if_pos hc] at h
      cases hb : cleanBody c s with
      | error e =>
        rw [hb] at h
        have := cleanBody_error c s e hb
        simp [this] at h
      | ok s1 => rw [hb] at h; exact ih s1 h
    · simp [cleanLoop, hc] at h

/-! ### Claims C1 - C5: loop entry, termination and truncation -/

/-- C1 counterexample: on the valid input `measured = original = [1]`,
`delta_t = 1 > 0`, `threshold = 1 > 0`, the loop executes zero iterations
(the sentinel-primed entry condition `1 > 1*2` is false), refuting "the
first iteration of the decomposition loop always executes regardless of
the value of threshold". -/
theorem c1_counterexample :
    ([1] : List ℝ).length = ([1] : List ℝ).length ∧ (0 : ℝ) < 1 ∧ (0 : ℝ) < 1 ∧
    extract_CLEAN_trace [1] [1] 1 1 5 = some (.ok (initState [1])) ∧
    (initState [1]).iterations = 0 := by
  refine ⟨rfl, one_pos, one_pos, ?_, rfl⟩
  exact (extract_CLEAN_not_entered [1] [1] 1 1 5 (by norm_num)).1

/-- C1 (amended): the first iteration of the decomposition loop always
executes, regardless of the signals, provided `threshold < 1/2` — the
loop's sentinel-primed entry condition is `1 > threshold * 2`.  Stated
observably: any state in which the loop stops has executed at least one
iteration. -/
theorem c1_first_iteration_of_threshold_lt_half (m o : List ℝ) (dt thr : ℝ)
    (fuel : ℕ) (s : LoopState) (hthr : thr < 1 / 2)
    (h : extract_CLEAN_trace m o dt thr fuel = some (.ok s)) :
    1 ≤ s.iterations := by
  rw [extract_CLEAN_trace] at h
  have hc : (initState m).amplitude > (mkCtx o dt thr).threshold * (initState m).amp_max := by
    simp only [initState, mkCtx]
    linarith
  cases fuel with
  | zero => simp [cleanLoop, hc] at h
  | succ n =>
    simp only [cleanLoop, if_pos hc] at h
    cases hb : cleanBody (mkCtx o dt thr) (initState m) with
    | error e => rw [hb] at h; simp at h
    | ok s1 =>
      rw [hb] at h
      have h1 := (cleanBody_ok _ _ s1 hb).2.2.2.2.2.2
      have h2 := cleanLoop_iterations_le (mkCtx o dt thr) n s1 s h
      simp [initState] at h1
      omega

/-- C2: for `threshold ≥ 0.5` the sentinel-primed entry condition
`1 > threshold * 2` is false, so the loop executes zero iterations and
`extract_CLEAN` returns four empty sequences, for any measured and
original signals. -/
theorem c2_high_threshold_zero_iterations (m o : List ℝ) (dt thr : ℝ) (fuel : ℕ)
    (h : (1 : ℝ) / 2 ≤ thr) :
    extract_CLEAN_trace m o dt thr fuel = some (.ok (initState m)) ∧
    (initState m).iterations = 0 ∧
    extract_CLEAN m o dt thr fuel = some (.ok ([], [], [], [])) := by
  obtain ⟨h1, h2⟩ := extract_CLEAN_not_entered m o dt thr fuel h
  exact ⟨h1, rfl, h2⟩

/-- Witness for C2 at `threshold = 0.6` and signals `[1]`, `[1, 2]`. -/
theorem c2_witness :
    (1 : ℝ) / 2 ≤ 3 / 5 ∧
    (extract_CLEAN_trace [1] [1, 2] 1 (3 / 5) 7 = some (.ok (initState [1])) ∧
     (initState [1]).iterations = 0 ∧
     extract_CLEAN [1] [1, 2] 1 (3 / 5) 7 = some (.ok ([], [], [], []))) :=
  ⟨by norm_num, c2_high_threshold_zero_iterations [1] [1, 2] 1 (3 / 5) 7 (by norm_num)⟩

/-- C3: when the loop stops after `k ≥ 1` executed iterations, the last
appended entries are dropped from all four accumulators and each returned
sequence has length `k - 1`. -/
theorem c3_truncation_lengths (m o : List ℝ) (dt thr : ℝ) (fuel : ℕ)
    (s : LoopState) (h : extract_CLEAN_trace m o dt thr fuel = some (.ok s))
    (hk : 1 ≤ s.iterations) :
    extract_CLEAN m o dt thr fuel =
      some (.ok (s.amplitudes.dropLast, s.delays.dropLast, s.phases.dropLast,
        s.components.dropLast)) ∧
    s.amplitudes.dropLast.length = s.iterations - 1 ∧
    s.delays.dropLast.length = s.iterations - 1 ∧
    s.phases.dropLast.length = s.iterations - 1 ∧
    s.components.dropLast.length = s.iterations - 1 := by
  have hlen := cleanLoop_lengths (mkCtx o dt thr) fuel (initState m) s h
    (by simp [initState]) (by simp [initState]) (by simp [initState]) (by simp [initState])
  obtain ⟨l1, l2, l3, l4⟩ := hlen
  refine ⟨?_, ?_, ?_, ?_, ?_⟩
  · rw [extract_CLEAN, h]
  · rw [List.length_dropLast, l1]
  · rw [List.length_dropLast, l2]
  · rw [List.length_dropLast, l3]
  · rw [List.length_dropLast, l4]

/-- C4 counterexample: measured `[1]` and original `[1, 1]` have differing
lengths, yet `extract_CLEAN` (at `threshold = 1`, where the loop body is
never entered) returns a result rather than failing with a ShapeMismatch
error, refuting "fails immediately with a ShapeMismatch error before
computing any transform". -/
theorem c4_counterexample :
    ([1] : List ℝ).length ≠ ([1, 1] : List ℝ).length ∧
    extract_CLEAN [1] [1, 1] 1 1 3 = some (.ok ([], [], [], [])) := by
  refine ⟨by simp, ?_⟩
  exact (extract_CLEAN_not_entered [1] [1, 1] 1 1 3 (by norm_num)).2

/-- C4 (amended): `extract_CLEAN` contains no length validation whatever:
no call, with any signals of any lengths, ever fails with a ShapeMismatch
error.  (When mismatched lengths do make it fail, the failure is numpy's
broadcasting error inside the loop, after both transforms were computed.) -/
theorem c4_no_shape_mismatch (m o : List ℝ) (dt thr : ℝ) (fuel : ℕ) :
    extract_CLEAN m o dt thr fuel ≠ some (.error .shapeMismatch) := by
  intro h
  rw [extract_CLEAN] at h
  cases htr : extract_CLEAN_trace m o dt thr fuel with
  | none => rw [htr] at h; simp at h
  | some r =>
    cases r with
    | error e =>
      rw [htr] at h
      simp only [Option.some.injEq, Except.error.injEq] at h
      subst h
      exact cleanLoop_no_shapeMismatch (mkCtx o dt thr) fuel (initState m) htr
    | ok s => rw [htr] at h; simp at h

/-- C5: for `threshold ≥ 1` (hence `≥ 1/2`) the loop is never entered and
all four returned sequences are empty. -/
theorem c5_threshold_ge_one_empty (m o : List ℝ) (dt thr : ℝ) (fuel : ℕ)
    (h : (1 : ℝ) ≤ thr) :
    extract_CLEAN m o dt thr fuel = some (.ok ([], [], [], [])) :=
  (extract_CLEAN_not_entered m o dt thr fuel (by linarith)).2

/-- Witness for C5 at `threshold = 2` and signals `[1, 2]`, `[3, 4]`. -/
theorem c5_witness :
    (1 : ℝ) ≤ 2 ∧ extract_CLEAN [1, 2] [3, 4] 1 2 4 = some (.ok ([], [], [], [])) :=
  ⟨by norm_num, c5_threshold_ge_one_empty [1, 2] [3, 4] 1 2 4 (by norm_num)⟩

/-! ### Discrete Fourier transform: index formulas and inversion -/

lemma getD_of_lt {α : Type} (l : List α) (n : ℕ) (d : α) (h : n < l.length) :
    l.getD n d = l[n] := by
  rw [List.getD_eq_getElem?_getD, List.getElem?_eq_getElem h, Option.getD_some]

lemma getD_range_map {α : Type} (f : ℕ → α) (L k : ℕ) (d : α) (h : k < L) :
    ((List.range L).map f).getD k d = f k := by
  rw [getD_of_lt _ _ _ (by simpa using h)]
  simp

@[simp] lemma length_fft (x : List ℂ) : (fft x).length = x.length := by
  simp [fft]

@[simp] lemma length_ifft (X : List ℂ) : (ifft X).length = X.length := by
  simp [ifft]

@[simp] lemma length_fftfreq (n : ℕ) (d : ℝ) : (fftfreq n d).length = n := by
  simp [fftfreq]

@[simp] lemma length_hilbert (x : List ℝ) : (hilbert x).length = x.length := by
  simp [hilbert]

@[simp] lemma length_residueTime (R : List ℂ) : (residueTime R).length = R.length := by
  simp [residueTime]

lemma fft_getD (x : List ℂ) (k : ℕ) (hk : k < x.length) :
    (fft x).getD k 0 =
      ∑ n ∈ Finset.range x.length,
        x.getD n 0 * Complex.exp (-(2 * (Real.pi : ℂ) * Complex.I * k * n) / x.length) := by
  rw [fft, getD_range_map _ _ _ _ hk]

lemma ifft_getD (X : List ℂ) (n : ℕ) (hn : n < X.length) :
    (ifft X).getD n 0 =
      (X.length : ℂ)⁻¹ *
        ∑ k ∈ Finset.range X.length,
          X.getD k 0 * Complex.exp ((2 * (Real.pi : ℂ) * Complex.I * k * n) / X.length) := by
  rw [ifft, getD_range_map _ _ _ _ hn]

lemma hilbert_getD (x : List ℝ) (n : ℕ) (hn : n < x.length) :
    (hilbert x).getD n 0 =
      ((x.length : ℕ) : ℂ)⁻¹ *
        ∑ k ∈ Finset.range x.length,
          (hilbertWeight x.length k : ℂ) * (fft (x.map fun (r : ℝ) => (r : ℂ))).getD k 0 *
            Complex.exp ((2 * (Real.pi : ℂ) * Complex.I * k * n) / x.length) := by
  rw [hilbert, ifft]
  have hlen : ((List.range x.length).map fun k =>
      (hilbertWeight x.length k : ℂ) * (fft (x.map fun (r : ℝ) => (r : ℂ))).getD k 0).length
      = x.length := by simp
  rw [hlen, getD_range_map _ _ _ _ hn]
  congr 1
  refine Finset.sum_congr rfl fun k hk => ?_
  rw [getD_range_map _ _ _ _ (Finset.mem_range.mp hk)]

/-- Orthogonality of the discrete Fourier kernel: summing
`exp(-2πi·k·j/L)·exp(2πi·k·a/L)` over `k` gives `L` on the diagonal and
`0` off it. -/
lemma dft_kernel_orthogonal (L a j : ℕ) (ha : a < L) (hj : j < L) :
    ∑ k ∈ Finset.range L,
        Complex.exp (-(2 * (Real.pi : ℂ) * Complex.I * k * j) / L) *
          Complex.exp ((2 * (Real.pi : ℂ) * Complex.I * k * a) / L)
      = if a = j then (L : ℂ) else 0 := by
  have hL : 0 < L := lt_of_le_of_lt (Nat.zero_le a) ha
  have hLC : (L : ℂ) ≠ 0 := Nat.cast_ne_zero.mpr hL.ne'
  set w : ℂ := Complex.exp ((2 * (Real.pi : ℂ) * Complex.I * ((a : ℂ) - (j : ℂ))) / L) with hw
  have hterm : ∀ k : ℕ,
      Complex.exp (-(2 * (Real.pi : ℂ) * Complex.I * k * j) / L) *
        Complex.exp ((2 * (Real.pi : ℂ) * Complex.I * k * a) / L) = w ^ k := by
    intro k
    rw [hw, ← Complex.exp_nat_mul, ← Complex.exp_add]
    congr 1
    ring
  by_cases haj : a = j
  · subst haj
    have hw1 : w = 1 := by
      rw [hw]
      norm_num [Complex.exp_zero]
    simp [hterm, hw1]
  · have hw1 : w ≠ 1 := by
      intro h1
      rw [hw, Complex.exp_eq_one_iff] at h1
      obtain ⟨m, hm⟩ := h1
      have hm2 : (a : ℂ) - (j : ℂ) = m * L := by
        have := hm
        field_simp at this
        have h2pi : (2 * (Real.pi : ℂ) * Complex.I) ≠ 0 := by
          simpa [mul_comm, mul_assoc] using Complex.two_pi_I_ne_zero
        -- `this` : 2 * π * I * ((a:ℂ) - j) = m * (2 * π * I) * L (up to assoc)
        have key : (2 * (Real.pi : ℂ) * Complex.I) * ((a : ℂ) - (j : ℂ)) =
            (2 * (Real.pi : ℂ) * Complex.I) * (m * L) := by ring_nf; ring_nf at this; linear_combination this
        exact mul_left_cancel₀ h2pi key
      have hm3 : (a : ℤ) - (j : ℤ) = m * (L : ℤ) := by
        exact_mod_cast hm2
      have hLZ : (0 : ℤ) < (L : ℤ) := by exact_mod_cast hL
      have haZ : (a : ℤ) < L := by exact_mod_cast ha
      have hjZ : (j : ℤ) < L := by exact_mod_cast hj
      have haZ0 : (0 : ℤ) ≤ (a : ℤ) := Int.ofNat_nonneg a
      have hjZ0 : (0 : ℤ) ≤ (j : ℤ) := Int.ofNat_nonneg j
      have hm0 : m = 0 := by
        rcases lt_trichotomy m 0 with hmneg | hmz | hmpos
        · nlinarith [mul_le_mul_of_nonneg_right (Int.add_one_le_iff.mpr hmneg) hLZ.le]
        · exact hmz
        · nlinarith [mul_le_mul_of_nonneg_right (Int.add_one_le_iff.mpr hmpos) hLZ.le]
      rw [hm0] at hm3
      simp at hm3
      omega
    have hgeom := geom_sum_eq hw1 L
    have hwL : w ^ L = 1 := by
      rw [hw, ← Complex.exp_nat_mul]
      have : (L : ℂ) * (2 * (Real.pi : ℂ) * Complex.I * ((a : ℂ) - (j : ℂ)) / L) =
          ((a : ℤ) - (j : ℤ) : ℤ) * (2 * (Real.pi : ℂ) * Complex.I) := by
        push_cast
        field_simp
        ring
      rw [this, Complex.exp_int_mul_two_pi_mul_I]
    calc ∑ k ∈ Finset.range L,
          Complex.exp (-(2 * (Real.pi : ℂ) * Complex.I * k * j) / L) *
            Complex.exp ((2 * (Real.pi : ℂ) * Complex.I * k * a) / L)
        = ∑ k ∈ Finset.range L, w ^ k := Finset.sum_congr rfl fun k _ => hterm k
      _ = (w ^ L - 1) / (w - 1) := hgeom
      _ = 0 := by rw [hwL]; simp
      _ = if a = j then (L : ℂ) else 0 := by rw [if_neg haj]

/-- The modelled transform pair inverts: `np.fft.ifft(np.fft.fft(x)) = x`. -/
lemma ifft_fft (x : List ℂ) : ifft (fft x) = x := by
  rcases Nat.eq_zero_or_pos x.length with hL | hL
  · have : x = [] := List.length_eq_zero.mp hL
    subst this
    rfl
  apply List.ext_getElem (by simp)
  intro a ha1 ha2
  have haL : a < x.length := ha2
  have h1 : (ifft (fft x))[a] = (ifft (fft x)).getD a 0 :=
    (getD_of_lt _ _ _ (by simpa using haL)).symm
  rw [h1, ifft_getD _ _ (by simpa using haL)]
  have hfl : (fft x).length = x.length := length_fft x
  rw [hfl]
  have hsum : ∀ k ∈ Finset.range x.length,
      (fft x).getD k 0 * Complex.exp ((2 * (Real.pi : ℂ) * Complex.I * k * a) / x.length)
        = ∑ j ∈ Finset.range x.length,
            x.getD j 0 *
              (Complex.exp (-(2 * (Real.pi : ℂ) * Complex.I * k * j) / x.length) *
                Complex.exp ((2 * (Real.pi : ℂ) * Complex.I * k * a) / x.length)) := by
    intro k hk
    rw [fft_getD x k (Finset.mem_range.mp hk), Finset.sum_mul]
    exact Finset.sum_congr rfl fun j _ => by ring
  rw [Finset.sum_congr rfl hsum, Finset.sum_comm]
  have hswap : ∀ j ∈ Finset.range x.length,
      (∑ k ∈ Finset.range x.length,
          x.getD j 0 *
            (Complex.exp (-(2 * (Real.pi : ℂ) * Complex.I * k * j) / x.length) *
              Complex.exp ((2 * (Real.pi : ℂ) * Complex.I * k * a) / x.length)))
        = x.getD j 0 * (if a = j then (x.length : ℂ) else 0) := by
    intro j hj
    rw [← Finset.mul_sum, dft_kernel_orthogonal x.length a j haL (Finset.mem_range.mp hj)]
  rw [Finset.sum_congr rfl hswap, Finset.sum_eq_single a]
  · rw [if_pos rfl, getD_of_lt _ _ _ haL]
    have hLC : (x.length : ℂ) ≠ 0 := Nat.cast_ne_zero.mpr hL.ne'
    field_simp
  · intro j _ hj
    rw [if_neg (fun h => hj h.symm), mul_zero]
  · intro h
    exact absurd (Finset.mem_range.mpr haL) h

/-- `np.fft.ifft(np.fft.fft(measured)).real` recovers the measured signal. -/
lemma residueTime_fft (m : List ℝ) :
    residueTime (fft (m.map fun (r : ℝ) => (r : ℂ))) = m := by
  rw [residueTime, ifft_fft, List.map_map]
  have : (Complex.re ∘ fun r : ℝ => (r : ℂ)) = id := by
    funext r
    simp
  rw [this, List.map_id]

/-! ### Hermitian-symmetry machinery -/

lemma getD_map_ofReal (x : List ℝ) (n : ℕ) :
    (x.map fun (r : ℝ) => (r : ℂ)).getD n 0 = ((x.getD n 0 : ℝ) : ℂ) := by
  rcases Nat.lt_or_ge n x.length with h | h
  · rw [getD_of_lt _ _ _ (by simpa using h), getD_of_lt _ _ _ h, List.getElem_map]
  · rw [List.getD_eq_default _ _ (by simpa using h), List.getD_eq_default _ _ h]
    simp

lemma conj_exp_kernel (L k n : ℕ) :
    (starRingEnd ℂ) (Complex.exp ((2 * (Real.pi : ℂ) * Complex.I * k * n) / L)) =
      Complex.exp (-(2 * (Real.pi : ℂ) * Complex.I * k * n) / L) := by
  rw [← Complex.exp_conj]
  congr 1
  simp only [map_div₀, map_mul, map_ofNat, Complex.conj_I, Complex.conj_ofReal, map_natCast]
  ring

lemma exp_kernel_mirror_neg (L k n : ℕ) (hL : 0 < L) (hk : k ≤ L) :
    Complex.exp (-(2 * (Real.pi : ℂ) * Complex.I * ((L - k : ℕ) : ℂ) * n) / L) =
      Complex.exp ((2 * (Real.pi : ℂ) * Complex.I * k * n) / L) := by
  have hcast : ((L - k : ℕ) : ℂ) = (L : ℂ) - k := by
    push_cast [hk]
    ring
  have hLC : (L : ℂ) ≠ 0 := Nat.cast_ne_zero.mpr hL.ne'
  rw [hcast]
  have harg : -(2 * (Real.pi : ℂ) * Complex.I * ((L : ℂ) - k) * n) / L =
      ((-(n : ℤ) : ℤ) : ℂ) * (2 * (Real.pi : ℂ) * Complex.I) +
        (2 * (Real.pi : ℂ) * Complex.I * k * n) / L := by
    push_cast
    field_simp
    ring
  rw [harg, Complex.exp_add, Complex.exp_int_mul_two_pi_mul_I, one_mul]

lemma exp_kernel_mirror_pos (L k n : ℕ) (hL : 0 < L) (hk : k ≤ L) :
    Complex.exp ((2 * (Real.pi : ℂ) * Complex.I * ((L - k : ℕ) : ℂ) * n) / L) =
      (starRingEnd ℂ) (Complex.exp ((2 * (Real.pi : ℂ) * Complex.I * k * n) / L)) := by
  have hcast : ((L - k : ℕ) : ℂ) = (L : ℂ) - k := by
    push_cast [hk]
    ring
  have hLC : (L : ℂ) ≠ 0 := Nat.cast_ne_zero.mpr hL.ne'
  rw [conj_exp_kernel, hcast]
  have harg : (2 * (Real.pi : ℂ) * Complex.I * ((L : ℂ) - k) * n) / L =
      ((n : ℤ) : ℂ) * (2 * (Real.pi : ℂ) * Complex.I) +
        -(2 * (Real.pi : ℂ) * Complex.I * k * n) / L := by
    push_cast
    field_simp
    ring
  rw [harg, Complex.exp_add, Complex.exp_int_mul_two_pi_mul_I, one_mul]

/-- Conjugating the positive kernel gives the negative kernel. -/
lemma conj_exp_kernel_neg (L k n : ℕ) :
    (starRingEnd ℂ) (Complex.exp (-(2 * (Real.pi : ℂ) * Complex.I * k * n) / L)) =
      Complex.exp ((2 * (Real.pi : ℂ) * Complex.I * k * n) / L) := by
  rw [← Complex.exp_conj]
  congr 1
  simp only [map_div₀, map_neg, map_mul, map_ofNat, Complex.conj_I, Complex.conj_ofReal,
    map_natCast]
  ring

/-- The spectrum of a real signal is Hermitian: bin `L-k` is the conjugate
of bin `k`. -/
lemma fft_real_conj (x : List ℝ) (k : ℕ) (hk1 : 1 ≤ k) (hk2 : k < x.length) :
    (fft (x.map fun (r : ℝ) => (r : ℂ))).getD (x.length - k) 0 =
      (starRingEnd ℂ) ((fft (x.map fun (r : ℝ) => (r : ℂ))).getD k 0) := by
  have hL : 0 < x.length := lt_of_le_of_lt (Nat.zero_le k) hk2
  have hlen : (x.map fun (r : ℝ) => (r : ℂ)).length = x.length := by simp
  have hsub : x.length - k < x.length := Nat.sub_lt hL hk1
  rw [fft_getD _ _ (by simpa [hlen] using hsub), fft_getD _ _ (by simpa [hlen] using hk2),
    map_sum]
  rw [hlen]
  refine Finset.sum_congr rfl fun n hn => ?_
  rw [map_mul, getD_map_ofReal, Complex.conj_ofReal, conj_exp_kernel_neg,
    exp_kernel_mirror_neg x.length k n hL hk2.le]

/-- Splitting a range sum whose terms pair off under `k ↦ L - k`:
if each pair has vanishing imaginary part, the sum's imaginary part is the
DC term's. -/
lemma sum_im_pairs (L : ℕ) (hL : 0 < L) (f : ℕ → ℂ)
    (h : ∀ k, 1 ≤ k → k < L → (f k + f (L - k)).im = 0) :
    (∑ k ∈ Finset.range L, f k).im = (f 0).im := by
  rw [Finset.sum_range_eq_add_Ico f hL]
  have hrefl : ∑ k ∈ Finset.Ico 1 L, f k = ∑ k ∈ Finset.Ico 1 L, f (L - k) := by
    refine Finset.sum_nbij' (fun k => L - k) (fun k => L - k) ?_ ?_ ?_ ?_ ?_
    · intro a ha
      simp only [Finset.mem_Ico] at ha ⊢
      omega
    · intro a ha
      simp only [Finset.mem_Ico] at ha ⊢
      omega
    · intro a ha
      simp only [Finset.mem_Ico] at ha
      show L - (L - a) = a
      omega
    · intro a ha
      simp only [Finset.mem_Ico] at ha
      show L - (L - a) = a
      omega
    · intro a ha
      simp only [Finset.mem_Ico] at ha
      show f a = f (L - (L - a))
      rw [Nat.sub_sub_self (by omega)]
  have hC : (∑ k ∈ Finset.Ico 1 L, f k) + ∑ k ∈ Finset.Ico 1 L, f k
      = ∑ k ∈ Finset.Ico 1 L, (f k + f (L - k)) := by
    nth_rewrite 2 [hrefl]
    rw [← Finset.sum_add_distrib]
  have hCim := congrArg Complex.im hC
  rw [Complex.add_im, Complex.im_sum, Complex.im_sum] at hCim
  have hterms : ∑ k ∈ Finset.Ico 1 L, (f k + f (L - k)).im = 0 := by
    refine Finset.sum_eq_zero fun k hk => ?_
    simp only [Finset.mem_Ico] at hk
    exact h k hk.1 hk.2
  rw [hterms] at hCim
  have hzero : (∑ k ∈ Finset.Ico 1 L, f k).im = 0 := by
    rw [Complex.im_sum]
    linarith
  rw [Complex.add_im, hzero, add_zero]

/-- Real-part analogue of `sum_im_pairs`. -/
lemma sum_re_pairs (L : ℕ) (hL : 0 < L) (f : ℕ → ℂ)
    (h : ∀ k, 1 ≤ k → k < L → (f k + f (L - k)).re = 0) :
    (∑ k ∈ Finset.range L, f k).re = (f 0).re := by
  rw [Finset.sum_range_eq_add_Ico f hL]
  have hrefl : ∑ k ∈ Finset.Ico 1 L, f k = ∑ k ∈ Finset.Ico 1 L, f (L - k) := by
    refine Finset.sum_nbij' (fun k => L - k) (fun k => L - k) ?_ ?_ ?_ ?_ ?_
    · intro a ha
      simp only [Finset.mem_Ico] at ha ⊢
      omega
    · intro a ha
      simp only [Finset.mem_Ico] at ha ⊢
      omega
    · intro a ha
      simp only [Finset.mem_Ico] at ha
      show L - (L - a) = a
      omega
    · intro a ha
      simp only [Finset.mem_Ico] at ha
      show L - (L - a) = a
      omega
    · intro a ha
      simp only [Finset.mem_Ico] at ha
      show f a = f (L - (L - a))
      rw [Nat.sub_sub_self (by omega)]
  have hC : (∑ k ∈ Finset.Ico 1 L, f k) + ∑ k ∈ Finset.Ico 1 L, f k
      = ∑ k ∈ Finset.Ico 1 L, (f k + f (L - k)) := by
    nth_rewrite 2 [hrefl]
    rw [← Finset.sum_add_distrib]
  have hCre := congrArg Complex.re hC
  rw [Complex.add_re, Complex.re_sum, Complex.re_sum] at hCre
  have hterms : ∑ k ∈ Finset.Ico 1 L, (f k + f (L - k)).re = 0 := by
    refine Finset.sum_eq_zero fun k hk => ?_
    simp only [Finset.mem_Ico] at hk
    exact h k hk.1 hk.2
  rw [hterms] at hCre
  have hzero : (∑ k ∈ Finset.Ico 1 L, f k).re = 0 := by
    rw [Complex.re_sum]
    linarith
  rw [Complex.add_re, hzero, add_zero]

/-! ### Claim C10: the analytic-signal construction -/

lemma hilbertWeight_zero (N : ℕ) : hilbertWeight N 0 = 1 := by
  simp [hilbertWeight]

/-- The Hilbert weights minus one are antisymmetric under `k ↦ N - k` on
the interior bins. -/
lemma hilbertWeight_mirror (N k : ℕ) (hk1 : 1 ≤ k) (hk2 : k < N) :
    hilbertWeight N (N - k) - 1 = -(hilbertWeight N k - 1) := by
  unfold hilbertWeight
  rw [if_neg (by omega : ¬ (N - k = 0)), if_neg (by omega : ¬ (k = 0))]
  rcases lt_trichotomy (2 * k) N with h | h | h
  · rw [if_pos h, if_neg (by omega : ¬ 2 * (N - k) < N), if_neg (by omega : ¬ 2 * (N - k) = N)]
    norm_num
  · rw [if_neg (by omega : ¬ 2 * k < N), if_pos h, if_neg (by omega : ¬ 2 * (N - k) < N),
      if_pos (by omega : 2 * (N - k) = N)]
    norm_num
  · rw [if_neg (by omega : ¬ 2 * k < N), if_neg (by omega : ¬ 2 * k = N),
      if_pos (by omega : 2 * (N - k) < N)]
    norm_num

/-- C10: for every real input signal, the analytic signal produced by the
Hilbert construction (zero negative-frequency bins, double strictly
positive ones, keep DC and Nyquist, inverse transform) has real part equal
to the input signal. -/
theorem c10_analytic_real_part (x : List ℝ) :
    (hilbert x).map Complex.re = x := by
  rcases Nat.eq_zero_or_pos x.length with hL | hL
  · rw [List.length_eq_zero] at hL
    subst hL
    simp [hilbert, ifft]
  apply List.ext_getElem (by simp)
  intro n hn1 hn2
  have hn3 : n < (hilbert x).length := by simpa using hn2
  rw [List.getElem_map]
  have hx : (hilbert x)[n] = (hilbert x).getD n 0 :=
    (getD_of_lt _ _ _ (by simpa using hn2)).symm
  rw [hx, hilbert_getD x n hn2]
  have hsplit : ∀ k ∈ Finset.range x.length,
      (hilbertWeight x.length k : ℂ) * (fft (x.map fun (r : ℝ) => (r : ℂ))).getD k 0 *
          Complex.exp ((2 * (Real.pi : ℂ) * Complex.I * k * n) / x.length)
        = (fft (x.map fun (r : ℝ) => (r : ℂ))).getD k 0 *
            Complex.exp ((2 * (Real.pi : ℂ) * Complex.I * k * n) / x.length) +
          ((hilbertWeight x.length k - 1 : ℝ) : ℂ) *
            ((fft (x.map fun (r : ℝ) => (r : ℂ))).getD k 0 *
              Complex.exp ((2 * (Real.pi : ℂ) * Complex.I * k * n) / x.length)) := by
    intro k _
    push_cast
    ring
  rw [Finset.sum_congr rfl hsplit, Finset.sum_add_distrib, mul_add, Complex.add_re]
  have hXlen : (fft (x.map fun (r : ℝ) => (r : ℂ))).length = x.length := by simp
  have h1 : ((x.length : ℂ)⁻¹ *
      ∑ k ∈ Finset.range x.length,
        (fft (x.map fun (r : ℝ) => (r : ℂ))).getD k 0 *
          Complex.exp ((2 * (Real.pi : ℂ) * Complex.I * k * n) / x.length))
      = ((x.getD n 0 : ℝ) : ℂ) := by
    have hid := ifft_getD (fft (x.map fun (r : ℝ) => (r : ℂ))) n (by rw [hXlen]; exact hn2)
    rw [hXlen] at hid
    rw [← hid, ifft_fft, getD_map_ofReal]
  rw [h1, Complex.ofReal_re]
  have h2 : (∑ k ∈ Finset.range x.length,
      ((hilbertWeight x.length k - 1 : ℝ) : ℂ) *
        ((fft (x.map fun (r : ℝ) => (r : ℂ))).getD k 0 *
          Complex.exp ((2 * (Real.pi : ℂ) * Complex.I * k * n) / x.length))).re = 0 := by
    rw [sum_re_pairs x.length hL _ ?_]
    · rw [hilbertWeight_zero]
      norm_num
    · intro k hk1 hk2
      have hmirX := fft_real_conj x k hk1 hk2
      have hmirE := exp_kernel_mirror_pos x.length k n hL hk2.le
      rw [hilbertWeight_mirror x.length k hk1 hk2, hmirX, hmirE]
      have hcomb : ((-(hilbertWeight x.length k - 1) : ℝ) : ℂ) *
          ((starRingEnd ℂ) ((fft (x.map fun (r : ℝ) => (r : ℂ))).getD k 0) *
            (starRingEnd ℂ)
              (Complex.exp ((2 * (Real.pi : ℂ) * Complex.I * k * n) / x.length)))
          = -(((hilbertWeight x.length k - 1 : ℝ) : ℂ) *
              (starRingEnd ℂ)
                ((fft (x.map fun (r : ℝ) => (r : ℂ))).getD k 0 *
                  Complex.exp ((2 * (Real.pi : ℂ) * Complex.I * k * n) / x.length))) := by
        rw [map_mul]
        push_cast
        ring
      rw [hcomb]
      set z : ℂ := (fft (x.map fun (r : ℝ) => (r : ℂ))).getD k 0 *
        Complex.exp ((2 * (Real.pi : ℂ) * Complex.I * k * n) / x.length) with hz
      have : ((hilbertWeight x.length k - 1 : ℝ) : ℂ) * z +
          -(((hilbertWeight x.length k - 1 : ℝ) : ℂ) * (starRingEnd ℂ) z)
          = ((hilbertWeight x.length k - 1 : ℝ) : ℂ) * (z - (starRingEnd ℂ) z) := by
        ring
      rw [this, Complex.re_ofReal_mul]
      simp [Complex.sub_re, Complex.conj_re]
  have h3 : ((x.length : ℂ)⁻¹ *
      ∑ k ∈ Finset.range x.length,
        ((hilbertWeight x.length k - 1 : ℝ) : ℂ) *
          ((fft (x.map fun (r : ℝ) => (r : ℂ))).getD k 0 *
            Complex.exp ((2 * (Real.pi : ℂ) * Complex.I * k * n) / x.length))).re = 0 := by
    have hcast : ((x.length : ℂ))⁻¹ = (((x.length : ℝ))⁻¹ : ℝ) := by
      push_cast
      rfl
    rw [hcast, Complex.re_ofReal_mul, h2, mul_zero]
  rw [h3, add_zero]
  exact (getD_of_lt _ _ _ hn2)

/-! ### Index formulas for the reconstruction operator -/

lemma getD_append_left {α : Type} (l l' : List α) (k : ℕ) (d : α) (h : k < l.length) :
    (l ++ l').getD k d = l.getD k d := by
  rw [getD_of_lt _ _ _ (by simp; omega), getD_of_lt _ _ _ h]
  exact List.getElem_append_left h

lemma getD_append_right {α : Type} (l l' : List α) (k : ℕ) (d : α) (h : l.length ≤ k) :
    (l ++ l').getD k d = l'.getD (k - l.length) d := by
  rcases Nat.lt_or_ge k (l.length + l'.length) with hk | hk
  · rw [getD_of_lt _ _ _ (by simp; omega), getD_of_lt _ _ _ (by omega)]
    exact List.getElem_append_right h
  · rw [List.getD_eq_default _ _ (by simp; omega), List.getD_eq_default _ _ (by omega)]

lemma getD_reverse {α : Type} (l : List α) (k : ℕ) (d : α) (h : k < l.length) :
    l.reverse.getD k d = l.getD (l.length - 1 - k) d := by
  rw [getD_of_lt _ _ _ (by simpa using h), getD_of_lt _ _ _ (by omega)]
  exact List.getElem_reverse _

lemma getD_dropLast {α : Type} (l : List α) (k : ℕ) (d : α) (h : k < l.length - 1) :
    l.dropLast.getD k d = l.getD k d := by
  rw [getD_of_lt _ _ _ (by simp; omega), getD_of_lt _ _ _ (by omega)]
  exact List.getElem_dropLast _ _ _

lemma getD_drop {α : Type} (l : List α) (m k : ℕ) (d : α) (h : m + k < l.length) :
    (l.drop m).getD k d = l.getD (m + k) d := by
  rw [getD_of_lt _ _ _ (by simp; omega), getD_of_lt _ _ _ h]
  exact List.getElem_drop _

lemma getD_map_conj (l : List ℂ) (k : ℕ) :
    (l.map (starRingEnd ℂ)).getD k 0 = (starRingEnd ℂ) (l.getD k 0) := by
  rcases Nat.lt_or_ge k l.length with h | h
  · rw [getD_of_lt _ _ _ (by simpa using h), getD_of_lt _ _ _ h, List.getElem_map]
  · rw [List.getD_eq_default _ _ (by simpa using h), List.getD_eq_default _ _ h]
    simp

lemma nyquistIndex_pos (L : ℕ) (hL : 1 ≤ L) : 1 ≤ nyquistIndex L := by
  unfold nyquistIndex
  split <;> omega

lemma nyquistIndex_le (L : ℕ) (hL : 1 ≤ L) : nyquistIndex L ≤ L := by
  unfold nyquistIndex
  split <;> omega

lemma componentSpectrum_length (X : List ℂ) (ω : List ℝ) (a d p : ℝ)
    (hω : ω.length = X.length) (hL : 1 ≤ X.length) :
    (componentSpectrum X ω a d p).length = nyquistIndex X.length := by
  have h := nyquistIndex_le X.length hL
  simp [componentSpectrum, hω]
  omega

lemma componentSpectrum_getD (X : List ℂ) (ω : List ℝ) (a d p : ℝ)
    (hω : ω.length = X.length) (k : ℕ) (hk : k < nyquistIndex X.length)
    (hkL : k < X.length) :
    (componentSpectrum X ω a d p).getD k 0 =
      (a : ℂ) * X.getD k 0 *
        Complex.exp (Complex.I * ((-(2 * Real.pi * ω.getD k 0 * d) + p : ℝ) : ℂ)) := by
  have hL : 1 ≤ X.length := by omega
  have hlen := componentSpectrum_length X ω a d p hω hL
  rw [getD_of_lt _ _ _ (by omega)]
  unfold componentSpectrum
  rw [List.getElem_map, List.getElem_zip]
  have hb1 : k < (X.take (nyquistIndex X.length)).length := by simp; omega
  have hbX : k < X.length := hkL
  have hb2 : k < (ω.take (nyquistIndex X.length)).length := by simp [hω]; omega
  have hbω : k < ω.length := by omega
  have h1 : (X.take (nyquistIndex X.length))[k] = X[k] := List.getElem_take X
  have h2 : (ω.take (nyquistIndex X.length))[k] = ω[k] := List.getElem_take ω
  simp only at h1 h2 ⊢
  rw [h1, h2, getD_of_lt _ _ _ hkL, getD_of_lt _ _ _ (by omega : k < ω.length)]

/-- The reconstructed double-sided spectrum has the length of the
reference spectrum. -/
lemma reconstructSpectrum_length (X : List ℂ) (ω : List ℝ) (a d p : ℝ)
    (hω : ω.length = X.length) (hL : 1 ≤ X.length) :
    (reconstructSpectrum X ω a d p).length = X.length := by
  have hlen := componentSpectrum_length X ω a d p hω hL
  have hle := nyquistIndex_le X.length hL
  have hpos := nyquistIndex_pos X.length hL
  unfold reconstructSpectrum
  by_cases hpar : X.length % 2 = 0
  · rw [if_pos hpar]
    simp only [List.length_append, List.length_reverse, List.length_dropLast,
      List.length_drop, List.length_map, hlen]
    unfold nyquistIndex at hlen hle hpos ⊢
    rw [if_pos hpar] at *
    omega
  · rw [if_neg hpar]
    simp only [List.length_append, List.length_reverse, List.length_drop,
      List.length_map, hlen]
    unfold nyquistIndex at hlen hle hpos ⊢
    rw [if_neg hpar] at *
    omega

/-- Bins below the boundary of the reconstructed spectrum come straight
from the half spectrum. -/
lemma reconstructSpectrum_getD_lt (X : List ℂ) (ω : List ℝ) (a d p : ℝ)
    (hω : ω.length = X.length) (k : ℕ) (hk : k < nyquistIndex X.length)
    (hkL : k < X.length) :
    (reconstructSpectrum X ω a d p).getD k 0 =
      (componentSpectrum X ω a d p).getD k 0 := by
  have hL : 1 ≤ X.length := by omega
  have hlen := componentSpectrum_length X ω a d p hω hL
  unfold reconstructSpectrum
  by_cases hpar : X.length % 2 = 0
  · rw [if_pos hpar, getD_append_left _ _ _ _ (by omega)]
  · rw [if_neg hpar, getD_append_left _ _ _ _ (by omega)]

/-- Bins at or above the boundary are the conjugated mirror of the half
spectrum: `Y[k] = conj(half[L-k])`. -/
lemma reconstructSpectrum_getD_ge (X : List ℂ) (ω : List ℝ) (a d p : ℝ)
    (hω : ω.length = X.length) (k : ℕ) (hk : nyquistIndex X.length ≤ k)
    (hkL : k < X.length) :
    (reconstructSpectrum X ω a d p).getD k 0 =
      (starRingEnd ℂ) ((componentSpectrum X ω a d p).getD (X.length - k) 0) := by
  have hL : 1 ≤ X.length := by omega
  have hlen := componentSpectrum_length X ω a d p hω hL
  have hle := nyquistIndex_le X.length hL
  have hpos := nyquistIndex_pos X.length hL
  unfold reconstructSpectrum
  by_cases hpar : X.length % 2 = 0
  · -- even: tail = reverse (dropLast (drop 1 (map conj cs)))
    have hN2 : 2 * nyquistIndex X.length = X.length + 2 := by
      unfold nyquistIndex
      rw [if_pos hpar]
      omega
    rw [if_pos hpar, getD_append_right _ _ _ _ (by omega)]
    rw [getD_reverse _ _ _ (by simp [hlen]; omega)]
    rw [getD_dropLast _ _ _ (by simp [hlen]; omega)]
    rw [getD_drop _ _ _ _ (by simp [hlen]; omega)]
    rw [getD_map_conj]
    congr 2
    simp only [List.length_dropLast, List.length_drop, List.length_map, hlen]
    omega
  · -- odd: tail = reverse (drop 1 (map conj cs))
    have hN2 : 2 * nyquistIndex X.length = X.length + 1 := by
      unfold nyquistIndex
      rw [if_neg hpar]
      omega
    rw [if_neg hpar, getD_append_right _ _ _ _ (by omega)]
    rw [getD_reverse _ _ _ (by simp [hlen]; omega)]
    rw [getD_drop _ _ _ _ (by simp [hlen]; omega)]
    rw [getD_map_conj]
    congr 2
    simp only [List.length_drop, List.length_map, hlen]
    omega

/-! ### Claim C7: structure of the reconstructed spectrum -/

/-- C7: in every iteration the reconstructed spectrum takes the reference
spectrum's bins `[0, boundary)` with `boundary = nyquistIndex L`
(`L/2 + 1` for even `L`, `ceil(L/2)` for odd `L`), multiplies bin `k` by
`amplitude · exp(i·(-2π·freq[k]·delay + phase))`, mirrors the remaining
bins conjugated (`Y[k] = conj(Y[L-k])` for `k ≥ boundary`), and has length
exactly `L`. -/
theorem c7_reconstruction_structure (X : List ℂ) (ω : List ℝ) (a d p : ℝ)
    (hω : ω.length = X.length) (hL : 1 ≤ X.length) :
    (reconstructSpectrum X ω a d p).length = X.length ∧
    (∀ k, k < nyquistIndex X.length → k < X.length →
      (reconstructSpectrum X ω a d p).getD k 0 =
        (a : ℂ) * X.getD k 0 *
          Complex.exp (Complex.I * ((-(2 * Real.pi * ω.getD k 0 * d) + p : ℝ) : ℂ))) ∧
    (∀ k, nyquistIndex X.length ≤ k → k < X.length →
      (reconstructSpectrum X ω a d p).getD k 0 =
        (starRingEnd ℂ) ((reconstructSpectrum X ω a d p).getD (X.length - k) 0)) := by
  refine ⟨reconstructSpectrum_length X ω a d p hω hL, ?_, ?_⟩
  · intro k hk hkL
    rw [reconstructSpectrum_getD_lt X ω a d p hω k hk hkL,
      componentSpectrum_getD X ω a d p hω k hk hkL]
  · intro k hk hkL
    have hle := nyquistIndex_le X.length hL
    have hpos := nyquistIndex_pos X.length hL
    have hmir : X.length - k < nyquistIndex X.length := by
      unfold nyquistIndex at hk ⊢
      by_cases hp : X.length % 2 = 0
      · rw [if_pos hp] at hk ⊢
        omega
      · rw [if_neg hp] at hk ⊢
        omega
    rw [reconstructSpectrum_getD_ge X ω a d p hω k hk hkL,
      reconstructSpectrum_getD_lt X ω a d p hω (X.length - k) hmir (by omega)]

/-- Witness for C7 on a length-2 reference spectrum. -/
theorem c7_witness :
    ([0, -(1 : ℝ) / 2] : List ℝ).length = ([1, 1] : List ℂ).length ∧
    1 ≤ ([1, 1] : List ℂ).length ∧
    ((reconstructSpectrum [1, 1] [0, -(1 : ℝ) / 2] 1 0 0).length = ([1, 1] : List ℂ).length ∧
     (∀ k, k < nyquistIndex ([1, 1] : List ℂ).length → k < ([1, 1] : List ℂ).length →
       (reconstructSpectrum [1, 1] [0, -(1 : ℝ) / 2] 1 0 0).getD k 0 =
         ((1 : ℝ) : ℂ) * ([1, 1] : List ℂ).getD k 0 *
           Complex.exp (Complex.I *
             ((-(2 * Real.pi * ([0, -(1 : ℝ) / 2] : List ℝ).getD k 0 * 0) + 0 : ℝ) : ℂ))) ∧
     (∀ k, nyquistIndex ([1, 1] : List ℂ).length ≤ k → k < ([1, 1] : List ℂ).length →
       (reconstructSpectrum [1, 1] [0, -(1 : ℝ) / 2] 1 0 0).getD k 0 =
         (starRingEnd ℂ)
           ((reconstructSpectrum [1, 1] [0, -(1 : ℝ) / 2] 1 0 0).getD
             (([1, 1] : List ℂ).length - k) 0))) :=
  ⟨by simp, by simp,
    c7_reconstruction_structure [1, 1] [0, -(1 : ℝ) / 2] 1 0 0 (by simp) (by simp)⟩

/-! ### Claim C6 (amended form): realness of reconstructed components -/

/-- The positive kernel at the Nyquist bin of an even length is `(-1)^n`. -/
lemma exp_kernel_nyquist (L n : ℕ) (hL : 0 < L) (hpar : L % 2 = 0) :
    Complex.exp ((2 * (Real.pi : ℂ) * Complex.I * ((L / 2 : ℕ) : ℂ) * n) / L) =
      (-1 : ℂ) ^ n := by
  have hdvd : (L / 2) * 2 = L := Nat.div_mul_cancel (Nat.dvd_of_mod_eq_zero hpar)
  have hLC : (L : ℂ) ≠ 0 := Nat.cast_ne_zero.mpr hL.ne'
  have hcast : ((L / 2 : ℕ) : ℂ) * 2 = (L : ℂ) := by exact_mod_cast congrArg Nat.cast hdvd
  have harg : (2 * (Real.pi : ℂ) * Complex.I * ((L / 2 : ℕ) : ℂ) * n) / L =
      (n : ℂ) * ((Real.pi : ℂ) * Complex.I) := by
    field_simp
    linear_combination (Real.pi : ℂ) * Complex.I * (n : ℂ) * hcast
  rw [harg, Complex.exp_nat_mul, Complex.exp_pi_mul_I]

/-- C6 (amended): the inverse transform of the reconstructed spectrum is
real-valued provided the DC bin (and, for even length, the Nyquist bin) of
the half spectrum are real; these bins carry the whole imaginary residue. -/
theorem c6_component_real_of_dc_nyquist_real (X : List ℂ) (ω : List ℝ) (a d p : ℝ)
    (hω : ω.length = X.length)
    (hdc : ((componentSpectrum X ω a d p).getD 0 0).im = 0)
    (hny : X.length % 2 = 0 → ((componentSpectrum X ω a d p).getD (X.length / 2) 0).im = 0) :
    ∀ n : ℕ, ((ifft (reconstructSpectrum X ω a d p)).getD n 0).im = 0 := by
  intro n
  rcases Nat.eq_zero_or_pos X.length with hL0 | hL
  · have hlen0 : (reconstructSpectrum X ω a d p).length = 0 := by
      rcases List.length_eq_zero.mp hL0 with rfl
      simp [reconstructSpectrum, componentSpectrum]
    rw [List.getD_eq_default _ _ (by simp [hlen0])]
    simp
  have hYlen := reconstructSpectrum_length X ω a d p hω hL
  rcases Nat.lt_or_ge n (X.length) with hn | hn
  · rw [ifft_getD _ _ (by omega), hYlen]
    have hcast : ((X.length : ℂ))⁻¹ = (((X.length : ℝ))⁻¹ : ℝ) := by
      push_cast
      rfl
    rw [hcast, Complex.im_ofReal_mul]
    have hsum : (∑ k ∈ Finset.range X.length,
        (reconstructSpectrum X ω a d p).getD k 0 *
          Complex.exp ((2 * (Real.pi : ℂ) * Complex.I * k * n) / X.length)).im = 0 := by
      rw [sum_im_pairs X.length hL _ ?_]
      · -- DC term
        rw [reconstructSpectrum_getD_lt X ω a d p hω 0 (nyquistIndex_pos X.length hL) hL]
        have h0 : Complex.exp ((2 * (Real.pi : ℂ) * Complex.I * (0 : ℕ) * n) / X.length) = 1 := by
          norm_num [Complex.exp_zero]
        rw [h0, mul_one]
        exact hdc
      · intro k hk1 hk2
        have hle := nyquistIndex_le X.length hL
        have hpos := nyquistIndex_pos X.length hL
        have hmirE := exp_kernel_mirror_pos X.length k n hL hk2.le
        rcases Nat.lt_or_ge k (nyquistIndex X.length) with hklt | hkge
        · rcases Nat.lt_or_ge (X.length - k) (nyquistIndex X.length) with hmlt | hmge
          · -- self-paired Nyquist bin: k = L - k = L/2, L even
            have hpar : X.length % 2 = 0 ∧ k = X.length / 2 := by
              unfold nyquistIndex at hklt hmlt
              by_cases hp : X.length % 2 = 0
              · rw [if_pos hp] at hklt hmlt
                constructor
                · exact hp
                · omega
              · rw [if_neg hp] at hklt hmlt
                omega
            obtain ⟨hpar, hkhalf⟩ := hpar
            have hkk : X.length - k = k := by omega
            rw [hkk]
            rw [reconstructSpectrum_getD_lt X ω a d p hω k hklt hk2]
            subst hkhalf
            rw [exp_kernel_nyquist X.length n hL hpar]
            have hthis := hny hpar
            rcases Nat.even_or_odd n with he | ho
            · rw [he.neg_one_pow, mul_one, Complex.add_im, hthis]
              norm_num
            · rw [ho.neg_one_pow, mul_neg, mul_one, Complex.add_im, Complex.neg_im, hthis]
              norm_num
          · -- k below boundary, mirror above
            rw [reconstructSpectrum_getD_lt X ω a d p hω k hklt hk2,
              reconstructSpectrum_getD_ge X ω a d p hω (X.length - k) hmge (by omega),
              hmirE]
            have hkk : X.length - (X.length - k) = k := by omega
            rw [hkk, ← reconstructSpectrum_getD_lt X ω a d p hω k hklt hk2]
            set z : ℂ := (reconstructSpectrum X ω a d p).getD k 0 *
              Complex.exp ((2 * (Real.pi : ℂ) * Complex.I * k * n) / X.length) with hz
            have hzz : (reconstructSpectrum X ω a d p).getD k 0 *
                Complex.exp ((2 * (Real.pi : ℂ) * Complex.I * k * n) / X.length) +
                (starRingEnd ℂ) ((reconstructSpectrum X ω a d p).getD k 0) *
                  (starRingEnd ℂ)
                    (Complex.exp ((2 * (Real.pi : ℂ) * Complex.I * k * n) / X.length)) =
                z + (starRingEnd ℂ) z := by
              rw [hz, map_mul]
            rw [hzz]
            simp [Complex.add_im, Complex.conj_im]
        · -- k at or above boundary, mirror below
          have hmlt : X.length - k < nyquistIndex X.length := by
            unfold nyquistIndex at hkge ⊢
            by_cases hp : X.length % 2 = 0
            · rw [if_pos hp] at hkge ⊢
              omega
            · rw [if_neg hp] at hkge ⊢
              omega
          rw [reconstructSpectrum_getD_ge X ω a d p hω k hkge hk2,
            reconstructSpectrum_getD_lt X ω a d p hω (X.length - k) hmlt (by omega),
            hmirE]
          set z : ℂ := (componentSpectrum X ω a d p).getD (X.length - k) 0 *
            (starRingEnd ℂ)
              (Complex.exp ((2 * (Real.pi : ℂ) * Complex.I * k * n) / X.length)) with hz
          have hcomb : (starRingEnd ℂ) ((componentSpectrum X ω a d p).getD (X.length - k) 0) *
              Complex.exp ((2 * (Real.pi : ℂ) * Complex.I * k * n) / X.length) +
              (componentSpectrum X ω a d p).getD (X.length - k) 0 *
                (starRingEnd ℂ)
                  (Complex.exp ((2 * (Real.pi : ℂ) * Complex.I * k * n) / X.length)) =
              z + (starRingEnd ℂ) z := by
            rw [hz, map_mul, Complex.conj_conj]
            ring
          rw [hcomb]
          simp [Complex.add_im, Complex.conj_im]
    rw [hsum, mul_zero]
  · rw [List.getD_eq_default _ _ (by simp [hYlen]; omega)]
    simp

/-- Witness for the amended C6 on the length-3 spectrum `[1,1,1]` with
amplitude 1, delay 0, phase 0 (all bins real). -/
theorem c6_witness :
    (([0, 1 / 3, -(1 : ℝ) / 3] : List ℝ).length = ([1, 1, 1] : List ℂ).length) ∧
    ((componentSpectrum [1, 1, 1] [0, 1 / 3, -(1 : ℝ) / 3] 1 0 0).getD 0 0).im = 0 ∧
    (([1, 1, 1] : List ℂ).length % 2 = 0 →
      ((componentSpectrum [1, 1, 1] [0, 1 / 3, -(1 : ℝ) / 3] 1 0 0).getD
        (([1, 1, 1] : List ℂ).length / 2) 0).im = 0) ∧
    ∀ n : ℕ,
      ((ifft (reconstructSpectrum [1, 1, 1] [0, 1 / 3, -(1 : ℝ) / 3] 1 0 0)).getD n 0).im
        = 0 := by
  have hω : ([0, 1 / 3, -(1 : ℝ) / 3] : List ℝ).length = ([1, 1, 1] : List ℂ).length := by
    simp
  have hdc : ((componentSpectrum [1, 1, 1] [0, 1 / 3, -(1 : ℝ) / 3] 1 0 0).getD 0 0).im
      = 0 := by
    rw [componentSpectrum_getD _ _ _ _ _ hω 0 (by norm_num [nyquistIndex]) (by norm_num)]
    norm_num
  have hny : ([1, 1, 1] : List ℂ).length % 2 = 0 →
      ((componentSpectrum [1, 1, 1] [0, 1 / 3, -(1 : ℝ) / 3] 1 0 0).getD
        (([1, 1, 1] : List ℂ).length / 2) 0).im = 0 := by
    intro h
    norm_num at h
  exact ⟨hω, hdc, hny,
    c6_component_real_of_dc_nyquist_real [1, 1, 1] [0, 1 / 3, -(1 : ℝ) / 3] 1 0 0 hω hdc hny⟩

/-! ### Correctness of the argmax model -/

lemma getD_map_abs (l : List ℂ) (k : ℕ) :
    (l.map Complex.abs).getD k 0 = Complex.abs (l.getD k 0) := by
  rcases Nat.lt_or_ge k l.length with h | h
  · rw [getD_of_lt _ _ _ (by simpa using h), getD_of_lt _ _ _ h, List.getElem_map]
  · rw [List.getD_eq_default _ _ (by simpa using h), List.getD_eq_default _ _ h]
    simp

lemma argmax_lt_length : ∀ l : List ℝ, l ≠ [] → argmax l < l.length := by
  intro l
  induction l with
  | nil => intro h; exact absurd rfl h
  | cons v t ih =>
    intro _
    cases t with
    | nil => simp [argmax]
    | cons w rest =>
      have hrec := ih (by simp)
      by_cases hc : (w :: rest).getD (argmax (w :: rest)) 0 ≤ v
      · simp only [argmax, if_pos hc]
        simp
      · simp only [argmax, if_neg hc]
        simp only [List.length_cons] at hrec ⊢
        omega

/-- The model argmax points at a maximal element. -/
lemma argmax_le : ∀ (l : List ℝ) (i : ℕ), i < l.length →
    l.getD i 0 ≤ l.getD (argmax l) 0 := by
  intro l
  induction l with
  | nil => intro i hi; simp at hi
  | cons v t ih =>
    intro i hi
    cases t with
    | nil =>
      cases i with
      | zero => simp [argmax]
      | succ j => simp at hi
    | cons w rest =>
      by_cases hc : (w :: rest).getD (argmax (w :: rest)) 0 ≤ v
      · simp only [argmax, if_pos hc, List.getD_cons_zero]
        cases i with
        | zero => simp
        | succ j =>
          rw [List.getD_cons_succ]
          exact le_trans (ih j (by simpa using hi)) hc
      · simp only [argmax, if_neg hc, List.getD_cons_succ]
        cases i with
        | zero =>
          rw [List.getD_cons_zero]
          exact le_of_lt (lt_of_not_le hc)
        | succ j =>
          rw [List.getD_cons_succ]
          exact ih j (by simpa using hi)

/-- The model argmax points at the FIRST maximal element: everything
before it is strictly smaller (numpy tie-breaking). -/
lemma argmax_first : ∀ (l : List ℝ) (i : ℕ), i < argmax l →
    l.getD i 0 < l.getD (argmax l) 0 := by
  intro l
  induction l with
  | nil => intro i hi; simp [argmax] at hi
  | cons v t ih =>
    intro i hi
    cases t with
    | nil => simp [argmax] at hi
    | cons w rest =>
      by_cases hc : (w :: rest).getD (argmax (w :: rest)) 0 ≤ v
      · simp only [argmax, if_pos hc] at hi
        omega
      · simp only [argmax, if_neg hc] at hi ⊢
        cases i with
        | zero =>
          rw [List.getD_cons_zero, List.getD_cons_succ]
          exact lt_of_not_le hc
        | succ j =>
          rw [List.getD_cons_succ, List.getD_cons_succ]
          exact ih j (by omega)

/-- If the loop makes progress out of state `s` (the result differs from
`s`), the stopping condition held at `s`. -/
lemma cleanLoop_progress (c : Ctx) (fuel : ℕ) (s s' : LoopState)
    (h : cleanLoop c fuel s = some (.ok s')) :
    s' = s ∨ s.amplitude > c.threshold * s.amp_max := by
  cases fuel with
  | zero =>
    by_cases hc : s.amplitude > c.threshold * s.amp_max
    · simp [cleanLoop, hc] at h
    · simp [cleanLoop, hc] at h
      exact Or.inl h.symm
  | succ n =>
    by_cases hc : s.amplitude > c.threshold * s.amp_max
    · exact Or.inr hc
    · simp [cleanLoop, hc] at h
      exact Or.inl h.symm

/-! ### Claim C8: the first amplitude is the peak envelope amplitude -/

/-- C8: whenever the returned amplitudes are non-empty, the first entry is
the maximum envelope magnitude of the analytic signal of the raw measured
signal: it is attained on `abs (hilbert m)` and bounds every entry. -/
theorem c8_first_amplitude_is_max_envelope (m o : List ℝ) (dt thr : ℝ) (fuel : ℕ)
    (as ds ps : List ℝ) (cs : List (List ℂ))
    (hres : extract_CLEAN m o dt thr fuel = some (.ok (as, ds, ps, cs)))
    (hne : as ≠ []) :
    as.getD 0 0 ∈ (hilbert m).map Complex.abs ∧
    ∀ x ∈ (hilbert m).map Complex.abs, x ≤ as.getD 0 0 := by
  -- recover the stopped state
  rw [extract_CLEAN] at hres
  cases htr : extract_CLEAN_trace m o dt thr fuel with
  | none => rw [htr] at hres; simp at hres
  | some r =>
    cases r with
    | error e => rw [htr] at hres; simp at hres
    | ok s =>
      rw [htr] at hres
      simp only [Option.some.injEq, Except.ok.injEq, Prod.mk.injEq] at hres
      obtain ⟨has, -, -, -⟩ := hres
      subst has
      rw [extract_CLEAN_trace] at htr
      rcases cleanLoop_progress _ fuel _ _ htr with heq | hcond0
      · rw [heq] at hne
        simp [initState] at hne
      cases fuel with
      | zero => simp [cleanLoop, hcond0] at htr
      | succ f =>
        simp only [cleanLoop, if_pos hcond0] at htr
        cases hb : cleanBody (mkCtx o dt thr) (initState m) with
        | error e => rw [hb] at htr; simp at htr
        | ok s1 =>
          rw [hb] at htr
          simp only at htr
          obtain ⟨e1, -, -, -, e5, e6, -⟩ := cleanBody_ok _ _ _ hb
          have hA0 : (initState m).amplitudes = ([] : List ℝ) := rfl
          rw [hA0, List.nil_append] at e1
          have hrt : residueTime (initState m).residue = m := residueTime_fft m
          have ha1 : iterAmplitude (initState m).residue = Complex.abs (peakValue m) := by
            rw [iterAmplitude, hrt]
          obtain ⟨t, ht⟩ := cleanLoop_amplitudes_grow _ f s1 s htr
          rw [e1] at ht
          have htne : t ≠ [] := by
            intro hteq
            subst hteq
            rw [List.append_nil] at ht
            rw [ht] at hne
            simp at hne
          rcases cleanLoop_progress _ f s1 s htr with heq1 | hcond1
          · rw [heq1, e1] at ht
            have hlen := congrArg List.length ht
            simp only [List.length_append, List.length_cons, List.length_nil] at hlen
            have ht0 : t.length = 0 := by omega
            exact absurd (List.length_eq_zero.mp ht0) htne
          · rw [e5, e6, hA0] at hcond1
            simp only [List.length_nil, if_pos rfl] at hcond1
            have ha1pos : 0 < iterAmplitude (initState m).residue := by
              rcases lt_trichotomy (iterAmplitude (initState m).residue) 0 with hlt | hz | hgt
              · have := Complex.abs.nonneg (peakValue m)
                rw [ha1] at hlt
                linarith
              · rw [hz] at hcond1
                simp at hcond1
              · exact hgt
            have hmne : m ≠ [] := by
              intro hm
              rw [ha1] at ha1pos
              subst hm
              simp [peakValue, hilbert, ifft] at ha1pos
            have hhne : (hilbert m).map Complex.abs ≠ [] := by
              intro hcontra
              have := congrArg List.length hcontra
              simp only [List.length_map, length_hilbert, List.length_nil] at this
              exact hmne (List.length_eq_zero.mp this)
            have hhead : s.amplitudes.dropLast.getD 0 0 =
                iterAmplitude (initState m).residue := by
              rw [ht]
              cases t with
              | nil => exact absurd rfl htne
              | cons b u => simp [List.dropLast]
            rw [hhead, ha1]
            have hargmax := argmax_lt_length ((hilbert m).map Complex.abs) hhne
            constructor
            · have hval : Complex.abs (peakValue m) =
                  ((hilbert m).map Complex.abs).getD (peakIndex m) 0 := by
                rw [peakValue, getD_map_abs]
              rw [hval, peakIndex, getD_of_lt _ _ _ hargmax]
              exact List.getElem_mem _
            · intro x hx
              obtain ⟨i, hi, hxi⟩ := List.mem_iff_getElem.mp hx
              have hxval : x = ((hilbert m).map Complex.abs).getD i 0 := by
                rw [getD_of_lt _ _ _ hi, hxi]
              rw [hxval, peakValue, peakIndex, ← getD_map_abs]
              exact argmax_le ((hilbert m).map Complex.abs) i hi

/-! ### Claim C9: the unwrapped phase formula -/

/-- C9: the phase appended by an iteration is exactly
`arg(analytic residue at its first maximal-envelope index) - arg(reference
analytic peak) + 2π`, as a raw additive value with no range normalization. -/
theorem c9_phase_formula (c : Ctx) (s s1 : LoopState)
    (h : cleanBody c s = .ok s1) :
    ∃ j : ℕ,
      s1.phases = s.phases ++
        [Complex.arg ((hilbert (residueTime s.residue)).getD j 0) -
          Complex.arg (c.original_hilbert.getD c.original_argpeak 0) + 2 * Real.pi] ∧
      (∀ i, i < (hilbert (residueTime s.residue)).length →
        Complex.abs ((hilbert (residueTime s.residue)).getD i 0) ≤
          Complex.abs ((hilbert (residueTime s.residue)).getD j 0)) ∧
      (∀ i, i < j →
        Complex.abs ((hilbert (residueTime s.residue)).getD i 0) <
          Complex.abs ((hilbert (residueTime s.residue)).getD j 0)) := by
  refine ⟨peakIndex (residueTime s.residue), ?_, ?_, ?_⟩
  · have := (cleanBody_ok c s s1 h).2.2.1
    rw [this, iterPhase, peakValue]
  · intro i hi
    have := argmax_le ((hilbert (residueTime s.residue)).map Complex.abs) i
      (by simpa using hi)
    rw [getD_map_abs, getD_map_abs] at this
    exact this
  · intro i hi
    have := argmax_first ((hilbert (residueTime s.residue)).map Complex.abs) i hi
    rw [getD_map_abs, getD_map_abs] at this
    exact this

/-! ### Concrete evaluation on singleton signals -/

lemma fft_single (z : ℂ) : fft [z] = [z] := by
  simp [fft, Finset.sum_range_one]

lemma ifft_single (z : ℂ) : ifft [z] = [z] := by
  simp [ifft, Finset.sum_range_one]

lemma hilbert_single (x : ℝ) : hilbert [x] = [(x : ℂ)] := by
  unfold hilbert
  have h1 : (([x] : List ℝ).map fun (r : ℝ) => (r : ℂ)) = [(x : ℂ)] := by simp
  rw [h1]
  have h2 : ((List.range ([x] : List ℝ).length).map fun k =>
      (hilbertWeight ([x] : List ℝ).length k : ℂ) * (fft [(x : ℂ)]).getD k 0) =
      [(x : ℂ)] := by
    simp [fft_single, hilbertWeight, List.range_succ, List.range_zero]
  rw [h2, ifft_single]

lemma argmax_single (a : ℝ) : argmax [a] = 0 := by
  simp [argmax]

lemma residueTime_single_one : residueTime [(1 : ℂ)] = [1] := by
  rw [residueTime, ifft_single]
  simp

lemma residueTime_single_zero : residueTime [(0 : ℂ)] = [0] := by
  rw [residueTime, ifft_single]
  simp

lemma peakIndex_single (x : ℝ) : peakIndex [x] = 0 := by
  rw [peakIndex, hilbert_single]
  simp [argmax]

lemma peakValue_single (x : ℝ) : peakValue [x] = (x : ℂ) := by
  rw [peakValue, hilbert_single, peakIndex_single]
  rfl

lemma fftfreq_one : fftfreq 1 1 = [0] := by
  simp [fftfreq, List.range_succ, List.range_zero]

lemma exp_I_two_pi : Complex.exp (Complex.I * ((2 * Real.pi : ℝ) : ℂ)) = 1 := by
  have h : Complex.I * ((2 * Real.pi : ℝ) : ℂ) = 2 * (Real.pi : ℂ) * Complex.I := by
    push_cast
    ring
  rw [h, Complex.exp_two_pi_mul_I]

/-! ### A full concrete run: measured = original = `[1]`, `delta_t = 1`,
`threshold = 2/5`.  Iteration 1 extracts amplitude 1 and cancels the
residue; iteration 2 finds amplitude 0 and stops. -/

/-- Loop state after the first iteration of the `[1]`-run. -/
noncomputable def stateA1 : LoopState :=
  { amplitudes := [1], delays := [0], phases := [2 * Real.pi],
    components := [[(1 : ℂ)]], residue := [0], amplitude := 1, amp_max := 1,
    iterations := 1 }

/-- Loop state after the second iteration of the `[1]`-run. -/
noncomputable def stateA2 : LoopState :=
  { amplitudes := [1, 0], delays := [0, 0], phases := [2 * Real.pi, 2 * Real.pi],
    components := [[(1 : ℂ)], [(0 : ℂ)]], residue := [0], amplitude := 0, amp_max := 1,
    iterations := 2 }

lemma ctxA_spectrum : (mkCtx [1] 1 (2 / 5)).original_spectrum = [(1 : ℂ)] := by
  show fft (([1] : List ℝ).map fun (r : ℝ) => (r : ℂ)) = [(1 : ℂ)]
  have h : (([1] : List ℝ).map fun (r : ℝ) => (r : ℂ)) = [(1 : ℂ)] := by simp
  rw [h, fft_single]

lemma ctxA_omega : (mkCtx [1] 1 (2 / 5)).omega = [0] := by
  show fftfreq ([1] : List ℝ).length 1 = [0]
  exact fftfreq_one

lemma ctxA_hilbert : (mkCtx [1] 1 (2 / 5)).original_hilbert = [(1 : ℂ)] := by
  show hilbert [1] = [(1 : ℂ)]
  rw [hilbert_single]
  simp

lemma ctxA_argpeak : (mkCtx [1] 1 (2 / 5)).original_argpeak = 0 := by
  show argmax ((hilbert [1]).map Complex.abs) = 0
  rw [hilbert_single]
  simp [argmax]

lemma iterAmplitude_one : iterAmplitude [(1 : ℂ)] = 1 := by
  rw [iterAmplitude, residueTime_single_one, peakValue_single]
  simp

lemma iterAmplitude_zero : iterAmplitude [(0 : ℂ)] = 0 := by
  rw [iterAmplitude, residueTime_single_zero, peakValue_single]
  simp

lemma iterDelay_A1 : iterDelay (mkCtx [1] 1 (2 / 5)) [(1 : ℂ)] = 0 := by
  rw [iterDelay, residueTime_single_one, peakIndex_single, ctxA_argpeak]
  simp

lemma iterDelay_A2 : iterDelay (mkCtx [1] 1 (2 / 5)) [(0 : ℂ)] = 0 := by
  rw [iterDelay, residueTime_single_zero, peakIndex_single, ctxA_argpeak]
  simp

lemma iterPhase_A1 : iterPhase (mkCtx [1] 1 (2 / 5)) [(1 : ℂ)] = 2 * Real.pi := by
  rw [iterPhase, residueTime_single_one, peakValue_single, ctxA_hilbert, ctxA_argpeak]
  simp [Complex.arg_one]

lemma iterPhase_A2 : iterPhase (mkCtx [1] 1 (2 / 5)) [(0 : ℂ)] = 2 * Real.pi := by
  rw [iterPhase, residueTime_single_zero, peakValue_single, ctxA_hilbert, ctxA_argpeak]
  simp [Complex.arg_one, Complex.arg_zero]

lemma reconstructA1 : reconstructSpectrum [(1 : ℂ)] [0] 1 0 (2 * Real.pi) = [(1 : ℂ)] := by
  unfold reconstructSpectrum
  have hpar : ¬ (([(1 : ℂ)] : List ℂ).length % 2 = 0) := by norm_num
  rw [if_neg hpar]
  have hcs : componentSpectrum [(1 : ℂ)] [0] 1 0 (2 * Real.pi) = [(1 : ℂ)] := by
    unfold componentSpectrum nyquistIndex
    simp only [List.length_singleton]
    norm_num
    have harg : Complex.I * (2 * (Real.pi : ℂ)) = 2 * (Real.pi : ℂ) * Complex.I := by
      ring
    rw [harg, Complex.exp_two_pi_mul_I]
  rw [hcs]
  simp

lemma reconstructA2 : reconstructSpectrum [(1 : ℂ)] [0] 0 0 (2 * Real.pi) = [(0 : ℂ)] := by
  unfold reconstructSpectrum
  have hpar : ¬ (([(1 : ℂ)] : List ℂ).length % 2 = 0) := by norm_num
  rw [if_neg hpar]
  have hcs : componentSpectrum [(1 : ℂ)] [0] 0 0 (2 * Real.pi) = [(0 : ℂ)] := by
    unfold componentSpectrum nyquistIndex
    simp only [List.length_singleton]
    norm_num
  rw [hcs]
  simp

lemma iterRec_A1 : iterReconstructed (mkCtx [1] 1 (2 / 5)) [(1 : ℂ)] = [(1 : ℂ)] := by
  rw [iterReconstructed, iterAmplitude_one, iterDelay_A1, iterPhase_A1, ctxA_spectrum,
    ctxA_omega, reconstructA1]

lemma iterRec_A2 : iterReconstructed (mkCtx [1] 1 (2 / 5)) [(0 : ℂ)] = [(0 : ℂ)] := by
  rw [iterReconstructed, iterAmplitude_zero, iterDelay_A2, iterPhase_A2, ctxA_spectrum,
    ctxA_omega, reconstructA2]

lemma initA_residue : (initState ([1] : List ℝ)).residue = [(1 : ℂ)] := by
  show fft (([1] : List ℝ).map fun (r : ℝ) => (r : ℂ)) = [(1 : ℂ)]
  have h : (([1] : List ℝ).map fun (r : ℝ) => (r : ℂ)) = [(1 : ℂ)] := by simp
  rw [h, fft_single]

/-- First iteration of the `[1]`-run. -/
lemma runA_body1 : cleanBody (mkCtx [1] 1 (2 / 5)) (initState [1]) = .ok stateA1 := by
  rw [cleanBody_eq, initA_residue, iterRec_A1]
  have hbs : broadcastSub [(1 : ℂ)] [(1 : ℂ)] = some [0] := by
    simp [broadcastSub]
  rw [hbs]
  simp only [iterAmplitude_one, iterDelay_A1, iterPhase_A1, iterRec_A1, ifft_single]
  simp [initState, stateA1]

/-- Second iteration of the `[1]`-run. -/
lemma runA_body2 : cleanBody (mkCtx [1] 1 (2 / 5)) stateA1 = .ok stateA2 := by
  rw [cleanBody_eq]
  have hres : stateA1.residue = [(0 : ℂ)] := rfl
  rw [hres, iterRec_A2]
  have hbs : broadcastSub [(0 : ℂ)] [(0 : ℂ)] = some [0] := by
    simp [broadcastSub]
  rw [hbs]
  simp only [iterAmplitude_zero, iterDelay_A2, iterPhase_A2, iterRec_A2, ifft_single]
  simp [stateA1, stateA2]

lemma cleanLoop_succ_of_cond (c : Ctx) (fuel : ℕ) (s s1 : LoopState)
    (hc : s.amplitude > c.threshold * s.amp_max) (hb : cleanBody c s = .ok s1) :
    cleanLoop c (fuel + 1) s = cleanLoop c fuel s1 := by
  simp only [cleanLoop, if_pos hc, hb]

/-- The full `[1]`-run: the loop stops after two iterations. -/
lemma runA_trace :
    extract_CLEAN_trace [1] [1] 1 (2 / 5) 2 = some (.ok stateA2) := by
  rw [extract_CLEAN_trace]
  have hc0 : (initState ([1] : List ℝ)).amplitude >
      (mkCtx [1] 1 (2 / 5)).threshold * (initState ([1] : List ℝ)).amp_max := by
    show (1 : ℝ) > 2 / 5 * 2
    norm_num
  have hc1 : stateA1.amplitude > (mkCtx [1] 1 (2 / 5)).threshold * stateA1.amp_max := by
    show (1 : ℝ) > 2 / 5 * 1
    norm_num
  have hc2 : ¬ (stateA2.amplitude > (mkCtx [1] 1 (2 / 5)).threshold * stateA2.amp_max) := by
    show ¬ ((0 : ℝ) > 2 / 5 * 1)
    norm_num
  rw [show (2 : ℕ) = 1 + 1 from rfl,
    cleanLoop_succ_of_cond _ _ _ _ hc0 runA_body1,
    show (1 : ℕ) = 0 + 1 from rfl,
    cleanLoop_succ_of_cond _ _ _ _ hc1 runA_body2,
    cleanLoop_stop _ _ _ hc2]

/-- The truncated outputs of the `[1]`-run. -/
lemma runA_extract :
    extract_CLEAN [1] [1] 1 (2 / 5) 2 =
      some (.ok ([1], [0], [2 * Real.pi], [[(1 : ℂ)]])) := by
  rw [extract_CLEAN, runA_trace]
  simp [stateA2]

/-- Witness for the amended C1 on the `[1]`-run: `threshold = 2/5 < 1/2`
and the stopped state has executed at least one iteration. -/
theorem c1_witness :
    (2 / 5 : ℝ) < 1 / 2 ∧
    extract_CLEAN_trace [1] [1] 1 (2 / 5) 2 = some (.ok stateA2) ∧
    1 ≤ stateA2.iterations :=
  ⟨by norm_num, runA_trace,
    c1_first_iteration_of_threshold_lt_half [1] [1] 1 (2 / 5) 2 stateA2 (by norm_num)
      runA_trace⟩

/-- Witness for C3 on the `[1]`-run: two iterations executed, all four
returned sequences have length one. -/
theorem c3_witness :
    extract_CLEAN_trace [1] [1] 1 (2 / 5) 2 = some (.ok stateA2) ∧
    1 ≤ stateA2.iterations ∧
    (extract_CLEAN [1] [1] 1 (2 / 5) 2 =
      some (.ok (stateA2.amplitudes.dropLast, stateA2.delays.dropLast,
        stateA2.phases.dropLast, stateA2.components.dropLast)) ∧
     stateA2.amplitudes.dropLast.length = stateA2.iterations - 1 ∧
     stateA2.delays.dropLast.length = stateA2.iterations - 1 ∧
     stateA2.phases.dropLast.length = stateA2.iterations - 1 ∧
     stateA2.components.dropLast.length = stateA2.iterations - 1) :=
  ⟨runA_trace, by norm_num [stateA2],
    c3_truncation_lengths [1] [1] 1 (2 / 5) 2 stateA2 runA_trace (by norm_num [stateA2])⟩

/-- Witness for C8 on the `[1]`-run: the first returned amplitude, 1, is
the peak envelope amplitude of `hilbert [1]`. -/
theorem c8_witness :
    extract_CLEAN [1] [1] 1 (2 / 5) 2 =
      some (.ok ([1], [0], [2 * Real.pi], [[(1 : ℂ)]])) ∧
    ([1] : List ℝ) ≠ [] ∧
    (([1] : List ℝ).getD 0 0 ∈ (hilbert [1]).map Complex.abs ∧
     ∀ x ∈ (hilbert [1]).map Complex.abs, x ≤ ([1] : List ℝ).getD 0 0) :=
  ⟨runA_extract, by simp,
    c8_first_amplitude_is_max_envelope [1] [1] 1 (2 / 5) 2 [1] [0] [2 * Real.pi]
      [[(1 : ℂ)]] runA_extract (by simp)⟩

/-- Witness for C9 on the first iteration of the `[1]`-run. -/
theorem c9_witness :
    cleanBody (mkCtx [1] 1 (2 / 5)) (initState [1]) = .ok stateA1 ∧
    ∃ j : ℕ,
      stateA1.phases = (initState ([1] : List ℝ)).phases ++
        [Complex.arg ((hilbert (residueTime (initState ([1] : List ℝ)).residue)).getD j 0) -
          Complex.arg ((mkCtx [1] 1 (2 / 5)).original_hilbert.getD
            (mkCtx [1] 1 (2 / 5)).original_argpeak 0) + 2 * Real.pi] ∧
      (∀ i, i < (hilbert (residueTime (initState ([1] : List ℝ)).residue)).length →
        Complex.abs ((hilbert (residueTime (initState ([1] : List ℝ)).residue)).getD i 0) ≤
          Complex.abs ((hilbert (residueTime (initState ([1] : List ℝ)).residue)).getD j 0)) ∧
      (∀ i, i < j →
        Complex.abs ((hilbert (residueTime (initState ([1] : List ℝ)).residue)).getD i 0) <
          Complex.abs ((hilbert (residueTime (initState ([1] : List ℝ)).residue)).getD j 0)) :=
  ⟨runA_body1, c9_phase_formula (mkCtx [1] 1 (2 / 5)) (initState [1]) stateA1 runA_body1⟩

/-! ### Cube roots of unity, for length-3 concrete runs -/

/-- `exp(2πi/3)`. -/
noncomputable def w3 : ℂ := ⟨-(1 / 2), Real.sqrt 3 / 2⟩

/-- `exp(-2πi/3)`. -/
noncomputable def v3 : ℂ := ⟨-(1 / 2), -(Real.sqrt 3 / 2)⟩

lemma sqrt3_sq : Real.sqrt 3 * Real.sqrt 3 = 3 :=
  Real.mul_self_sqrt (by norm_num)

lemma w3_sq : w3 ^ 2 = v3 := by
  rw [pow_two, w3, v3]
  rw [Complex.ext_iff]
  constructor
  · simp [Complex.mul_re]
    nlinarith [sqrt3_sq]
  · simp [Complex.mul_im]
    ring

lemma v3_sq : v3 ^ 2 = w3 := by
  rw [pow_two, v3, w3]
  rw [Complex.ext_iff]
  constructor
  · simp [Complex.mul_re]
    nlinarith [sqrt3_sq]
  · simp [Complex.mul_im]
    ring

lemma w3_mul_v3 : w3 * v3 = 1 := by
  rw [w3, v3, Complex.ext_iff]
  constructor
  · simp [Complex.mul_re]
    nlinarith [sqrt3_sq]
  · simp [Complex.mul_im]
    ring

lemma w3_pow4 : w3 ^ 4 = w3 := by
  have h : w3 ^ 4 = (w3 ^ 2) ^ 2 := by ring
  rw [h, w3_sq, v3_sq]

lemma v3_pow4 : v3 ^ 4 = v3 := by
  have h : v3 ^ 4 = (v3 ^ 2) ^ 2 := by ring
  rw [h, v3_sq, w3_sq]

lemma exp_w3 : Complex.exp ((2 * (Real.pi : ℂ) * Complex.I) / 3) = w3 := by
  have h1 : (2 * (Real.pi : ℂ) * Complex.I) / 3 = ((2 * Real.pi / 3 : ℝ) : ℂ) * Complex.I := by
    push_cast
    ring
  have hcos : Real.cos (2 * Real.pi / 3) = -(1 / 2) := by
    rw [show (2 * Real.pi / 3 : ℝ) = Real.pi - Real.pi / 3 from by ring, Real.cos_pi_sub,
      Real.cos_pi_div_three]
  have hsin : Real.sin (2 * Real.pi / 3) = Real.sqrt 3 / 2 := by
    rw [show (2 * Real.pi / 3 : ℝ) = Real.pi - Real.pi / 3 from by ring, Real.sin_pi_sub,
      Real.sin_pi_div_three]
  rw [h1, Complex.exp_mul_I, ← Complex.ofReal_cos, ← Complex.ofReal_sin, hcos, hsin, w3,
    Complex.ext_iff]
  constructor <;> simp

lemma exp_w3_pow (j : ℕ) :
    Complex.exp ((2 * (Real.pi : ℂ) * Complex.I * j) / 3) = w3 ^ j := by
  have h : (2 * (Real.pi : ℂ) * Complex.I * j) / 3 =
      (j : ℂ) * ((2 * (Real.pi : ℂ) * Complex.I) / 3) := by
    ring
  rw [h, Complex.exp_nat_mul, exp_w3]

lemma exp_v3_pow (j : ℕ) :
    Complex.exp (-(2 * (Real.pi : ℂ) * Complex.I * j) / 3) = v3 ^ j := by
  have h1 := conj_exp_kernel 3 j 1
  simp only [Nat.cast_one, mul_one, Nat.cast_ofNat] at h1
  have hconj : (starRingEnd ℂ) w3 = v3 := by
    rw [Complex.ext_iff]
    constructor <;> simp [w3, v3]
  rw [← h1, exp_w3_pow, map_pow, hconj]

lemma fft_three (a b c : ℂ) :
    fft [a, b, c] = [a + b + c, a + b * v3 + c * v3 ^ 2, a + b * v3 ^ 2 + c * v3 ^ 4] := by
  have e1 : Complex.exp (-(2 * (Real.pi : ℂ) * Complex.I) / 3) = v3 := by
    have h := exp_v3_pow 1
    norm_num at h
    exact h
  have e2 : Complex.exp (-(2 * (Real.pi : ℂ) * Complex.I * 2) / 3) = v3 ^ 2 := by
    have h := exp_v3_pow 2
    norm_num at h
    exact h
  have e4 : Complex.exp (-(2 * (Real.pi : ℂ) * Complex.I * 2 * 2) / 3) = v3 ^ 4 := by
    have h := exp_v3_pow 4
    norm_num at h
    rw [show -(2 * (Real.pi : ℂ) * Complex.I * 2 * 2) / 3 =
      -(2 * (Real.pi : ℂ) * Complex.I * 4) / 3 from by ring]
    exact h
  unfold fft
  norm_num [show List.range 3 = [0, 1, 2] from rfl, Finset.sum_range_succ, Complex.exp_zero,
    e1, e2, e4]

lemma ifft_three (A B C : ℂ) :
    ifft [A, B, C] = [(3 : ℂ)⁻¹ * (A + B + C), (3 : ℂ)⁻¹ * (A + B * w3 + C * w3 ^ 2),
      (3 : ℂ)⁻¹ * (A + B * w3 ^ 2 + C * w3 ^ 4)] := by
  have e1 : Complex.exp ((2 * (Real.pi : ℂ) * Complex.I) / 3) = w3 := exp_w3
  have e2 : Complex.exp ((2 * (Real.pi : ℂ) * Complex.I * 2) / 3) = w3 ^ 2 := by
    have h := exp_w3_pow 2
    norm_num at h
    exact h
  have e4 : Complex.exp ((2 * (Real.pi : ℂ) * Complex.I * 2 * 2) / 3) = w3 ^ 4 := by
    have h := exp_w3_pow 4
    norm_num at h
    rw [show (2 * (Real.pi : ℂ) * Complex.I * 2 * 2) / 3 =
      (2 * (Real.pi : ℂ) * Complex.I * 4) / 3 from by ring]
    exact h
  unfold ifft
  norm_num [show List.range 3 = [0, 1, 2] from rfl, Finset.sum_range_succ, Complex.exp_zero,
    e1, e2, e4]

lemma hilbert_three (x y z : ℝ) :
    hilbert [x, y, z] =
      ifft [(x : ℂ) + y + z, 2 * ((x : ℂ) + y * v3 + z * v3 ^ 2), 0] := by
  unfold hilbert
  have hmap : (([x, y, z] : List ℝ).map fun (r : ℝ) => (r : ℂ)) = [(x : ℂ), y, z] := rfl
  rw [hmap, fft_three]
  congr 1
  norm_num [show List.range 3 = [0, 1, 2] from rfl, hilbertWeight]

/-! ### Envelope comparisons via squared magnitudes -/

lemma abs_le_abs_of_normSq {z w : ℂ} (h : Complex.normSq z ≤ Complex.normSq w) :
    Complex.abs z ≤ Complex.abs w := by
  rw [Complex.abs_apply, Complex.abs_apply]
  exact Real.sqrt_le_sqrt h

lemma abs_lt_abs_of_normSq {z w : ℂ} (h : Complex.normSq z < Complex.normSq w) :
    Complex.abs z < Complex.abs w := by
  rw [Complex.abs_apply, Complex.abs_apply]
  exact Real.sqrt_lt_sqrt (Complex.normSq_nonneg z) h

lemma argmax_three_head (x y z : ℝ) (h1 : z ≤ y) (h2 : y ≤ x) : argmax [x, y, z] = 0 := by
  simp [argmax, argmax_single, h1, h2]

lemma argmax_three_mid (x y z : ℝ) (h1 : z ≤ y) (h2 : ¬ y ≤ x) : argmax [x, y, z] = 1 := by
  simp [argmax, argmax_single, h1, h2]

/-! ### A length-3 run producing a component with nonzero imaginary part:
measured `[1, 1/2, 0]`, original `[1, 0, 0]`, `delta_t = 1`,
`threshold = 2/5`. -/

/-- The analytic peak value of the measured signal, `1 - (√3/6)i`. -/
noncomputable def pB : ℂ := ⟨1, -(Real.sqrt 3 / 6)⟩

/-- The residue after the first iteration of the length-3 run. -/
noncomputable def residueB : List ℂ :=
  [⟨1 / 2, Real.sqrt 3 / 6⟩, ⟨-(1 / 4), -(Real.sqrt 3 / 12)⟩, ⟨-(1 / 4), Real.sqrt 3 / 12⟩]

/-- Loop state after the first iteration of the length-3 run. -/
noncomputable def stateB1 : LoopState :=
  { amplitudes := [Complex.abs pB], delays := [0],
    phases := [Complex.arg pB + 2 * Real.pi],
    components := [ifft [pB, pB, (starRingEnd ℂ) pB]], residue := residueB,
    amplitude := Complex.abs pB, amp_max := Complex.abs pB, iterations := 1 }

lemma ctxB_spectrum :
    (mkCtx [1, 0, 0] 1 (2 / 5)).original_spectrum = [1, 1, 1] := by
  show fft (([1, 0, 0] : List ℝ).map fun (r : ℝ) => (r : ℂ)) = [1, 1, 1]
  have hmap : (([1, 0, 0] : List ℝ).map fun (r : ℝ) => (r : ℂ)) = [(1 : ℂ), 0, 0] := by
    norm_num
  rw [hmap, fft_three]
  norm_num

lemma ctxB_omega :
    (mkCtx [1, 0, 0] 1 (2 / 5)).omega = [0, 1 / 3, -(1 / 3)] := by
  show fftfreq ([1, 0, 0] : List ℝ).length 1 = [0, 1 / 3, -(1 / 3)]
  norm_num [fftfreq, show List.range 3 = [0, 1, 2] from rfl]

lemma hilbertO :
    hilbert [1, 0, 0] = [1, ⟨0, Real.sqrt 3 / 3⟩, ⟨0, -(Real.sqrt 3 / 3)⟩] := by
  rw [hilbert_three]
  have h1 : ((1 : ℝ) : ℂ) + ((0 : ℝ) : ℂ) + ((0 : ℝ) : ℂ) = 1 := by norm_num
  have h2 : 2 * (((1 : ℝ) : ℂ) + ((0 : ℝ) : ℂ) * v3 + ((0 : ℝ) : ℂ) * v3 ^ 2) = 2 := by
    norm_num
  rw [h1, h2, ifft_three, w3_sq, show w3 ^ 4 = w3 from w3_pow4]
  norm_num [List.cons.injEq, Complex.ext_iff, w3, v3, Complex.mul_re, Complex.mul_im] <;>
    ring

lemma ctxB_hilbert :
    (mkCtx [1, 0, 0] 1 (2 / 5)).original_hilbert =
      [1, ⟨0, Real.sqrt 3 / 3⟩, ⟨0, -(Real.sqrt 3 / 3)⟩] := by
  show hilbert [1, 0, 0] = _
  exact hilbertO

lemma ctxB_argpeak : (mkCtx [1, 0, 0] 1 (2 / 5)).original_argpeak = 0 := by
  show argmax ((hilbert [1, 0, 0]).map Complex.abs) = 0
  rw [hilbertO]
  show argmax [Complex.abs 1, Complex.abs ⟨0, Real.sqrt 3 / 3⟩,
    Complex.abs ⟨0, -(Real.sqrt 3 / 3)⟩] = 0
  apply argmax_three_head
  · apply abs_le_abs_of_normSq
    simp only [Complex.normSq_mk]
    ring_nf
    exact le_refl _
  · apply abs_le_abs_of_normSq
    simp only [Complex.normSq_mk, Complex.normSq_one]
    ring_nf
    norm_num [Real.sq_sqrt]

lemma hilbertM :
    hilbert [1, 1 / 2, 0] = [pB, ⟨1 / 2, Real.sqrt 3 / 3⟩, ⟨0, -(Real.sqrt 3 / 6)⟩] := by
  rw [hilbert_three]
  have hA : ((1 : ℝ) : ℂ) + ((1 / 2 : ℝ) : ℂ) + ((0 : ℝ) : ℂ) = 3 / 2 := by norm_num
  have hB : 2 * (((1 : ℝ) : ℂ) + ((1 / 2 : ℝ) : ℂ) * v3 + ((0 : ℝ) : ℂ) * v3 ^ 2) =
      (⟨3 / 2, -(Real.sqrt 3 / 2)⟩ : ℂ) := by
    norm_num [Complex.ext_iff, v3, Complex.mul_re, Complex.mul_im]
    ring
  rw [hA, hB, ifft_three, w3_sq, show w3 ^ 4 = w3 from w3_pow4]
  norm_num [List.cons.injEq, Complex.ext_iff, w3, v3, pB, Complex.mul_re, Complex.mul_im] <;>
    ring_nf <;> norm_num [Real.sq_sqrt]

lemma peakIndexM : peakIndex [1, 1 / 2, 0] = 0 := by
  rw [peakIndex, hilbertM]
  show argmax [Complex.abs pB, Complex.abs ⟨1 / 2, Real.sqrt 3 / 3⟩,
    Complex.abs ⟨0, -(Real.sqrt 3 / 6)⟩] = 0
  apply argmax_three_head
  · apply abs_le_abs_of_normSq
    simp only [Complex.normSq_mk]
    ring_nf
    norm_num [Real.sq_sqrt]
  · apply abs_le_abs_of_normSq
    simp only [Complex.normSq_mk, pB]
    ring_nf
    norm_num [Real.sq_sqrt]

lemma peakValueM : peakValue [1, 1 / 2, 0] = pB := by
  rw [peakValue, peakIndexM, hilbertM]
  rfl

lemma initB_residue :
    (initState [1, 1 / 2, 0]).residue =
      [⟨3 / 2, 0⟩, ⟨3 / 4, -(Real.sqrt 3 / 4)⟩, ⟨3 / 4, Real.sqrt 3 / 4⟩] := by
  show fft (([1, 1 / 2, 0] : List ℝ).map fun (r : ℝ) => (r : ℂ)) = _
  have hmap : (([1, 1 / 2, 0] : List ℝ).map fun (r : ℝ) => (r : ℂ)) =
      [(1 : ℂ), 1 / 2, 0] := by
    norm_num
  rw [hmap, fft_three, v3_sq, show v3 ^ 4 = v3 from v3_pow4]
  norm_num [List.cons.injEq, Complex.ext_iff, w3, v3, Complex.mul_re, Complex.mul_im] <;>
    ring

lemma residueTimeB0 : residueTime (initState [1, 1 / 2, 0]).residue = [1, 1 / 2, 0] :=
  residueTime_fft [1, 1 / 2, 0]

lemma iterAmplitudeB0 :
    iterAmplitude (initState [1, 1 / 2, 0]).residue = Complex.abs pB := by
  rw [iterAmplitude, residueTimeB0, peakValueM]

lemma iterDelayB0 :
    iterDelay (mkCtx [1, 0, 0] 1 (2 / 5)) (initState [1, 1 / 2, 0]).residue = 0 := by
  rw [iterDelay, residueTimeB0, peakIndexM, ctxB_argpeak]
  show ((0 : ℕ) - (0 : ℕ) : ℝ) * (1 : ℝ) = 0
  norm_num

lemma iterPhaseB0 :
    iterPhase (mkCtx [1, 0, 0] 1 (2 / 5)) (initState [1, 1 / 2, 0]).residue =
      Complex.arg pB + 2 * Real.pi := by
  rw [iterPhase, residueTimeB0, peakValueM, ctxB_hilbert, ctxB_argpeak]
  norm_num [Complex.arg_one]

lemma reconstructB1 :
    reconstructSpectrum [1, 1, 1] [0, 1 / 3, -(1 / 3)] (Complex.abs pB) 0
      (Complex.arg pB + 2 * Real.pi) = [pB, pB, (starRingEnd ℂ) pB] := by
  unfold reconstructSpectrum
  rw [if_neg (by norm_num : ¬ (([1, 1, 1] : List ℂ).length % 2 = 0))]
  have hcs : componentSpectrum [1, 1, 1] [0, 1 / 3, -(1 / 3)] (Complex.abs pB) 0
      (Complex.arg pB + 2 * Real.pi) = [pB, pB] := by
    unfold componentSpectrum nyquistIndex
    norm_num [List.take, List.zip]
    have h : Complex.I * ((Complex.arg pB : ℂ) + 2 * (Real.pi : ℂ)) =
        (Complex.arg pB : ℂ) * Complex.I + 2 * (Real.pi : ℂ) * Complex.I := by
      ring
    rw [h, Complex.exp_add, Complex.exp_two_pi_mul_I, mul_one, Complex.abs_mul_exp_arg_mul_I]
  rw [hcs]
  simp

lemma broadcastB1 :
    broadcastSub [⟨3 / 2, 0⟩, ⟨3 / 4, -(Real.sqrt 3 / 4)⟩, ⟨3 / 4, Real.sqrt 3 / 4⟩]
      [pB, pB, (starRingEnd ℂ) pB] = some residueB := by
  refine Eq.trans (b := some [⟨3 / 2, 0⟩ - pB, ⟨3 / 4, -(Real.sqrt 3 / 4)⟩ - pB,
      ⟨3 / 4, Real.sqrt 3 / 4⟩ - (starRingEnd ℂ) pB]) ?_ ?_
  · norm_num [broadcastSub, List.zipWith]
  · congr 1
    norm_num [residueB, pB, Complex.ext_iff, List.cons.injEq, and_self]
    constructor <;> ring

/-- First iteration of the length-3 run. -/
lemma runB_body1 :
    cleanBody (mkCtx [1, 0, 0] 1 (2 / 5)) (initState [1, 1 / 2, 0]) = .ok stateB1 := by
  rw [cleanBody_eq]
  have hrec : iterReconstructed (mkCtx [1, 0, 0] 1 (2 / 5))
      (initState [1, 1 / 2, 0]).residue = [pB, pB, (starRingEnd ℂ) pB] := by
    rw [iterReconstructed, iterAmplitudeB0, iterDelayB0, iterPhaseB0, ctxB_spectrum,
      ctxB_omega, reconstructB1]
  rw [hrec, iterAmplitudeB0, iterDelayB0, iterPhaseB0, initB_residue, broadcastB1]
  simp [initState, stateB1]

lemma ifftResidueB :
    ifft residueB = [⟨0, Real.sqrt 3 / 18⟩, ⟨1 / 3, Real.sqrt 3 / 18⟩,
      ⟨1 / 6, Real.sqrt 3 / 18⟩] := by
  show ifft [⟨1 / 2, Real.sqrt 3 / 6⟩, ⟨-(1 / 4), -(Real.sqrt 3 / 12)⟩,
    ⟨-(1 / 4), Real.sqrt 3 / 12⟩] = _
  rw [ifft_three, w3_sq, show w3 ^ 4 = w3 from w3_pow4]
  norm_num [List.cons.injEq, Complex.ext_iff, w3, v3, Complex.mul_re, Complex.mul_im] <;>
    ring_nf <;> norm_num [Real.sq_sqrt]

lemma r2tB : residueTime residueB = [0, 1 / 3, 1 / 6] := by
  rw [residueTime, ifftResidueB]
  norm_num

lemma hilbertR2 :
    hilbert [0, 1 / 3, 1 / 6] = [⟨0, -(Real.sqrt 3 / 18)⟩, ⟨1 / 3, -(Real.sqrt 3 / 18)⟩,
      ⟨1 / 6, Real.sqrt 3 / 9⟩] := by
  rw [hilbert_three]
  have hA : ((0 : ℝ) : ℂ) + ((1 / 3 : ℝ) : ℂ) + ((1 / 6 : ℝ) : ℂ) = 1 / 2 := by norm_num
  have hB : 2 * (((0 : ℝ) : ℂ) + ((1 / 3 : ℝ) : ℂ) * v3 + ((1 / 6 : ℝ) : ℂ) * v3 ^ 2) =
      (⟨-(1 / 2), -(Real.sqrt 3 / 6)⟩ : ℂ) := by
    rw [v3_sq]
    norm_num [Complex.ext_iff, v3, w3, Complex.mul_re, Complex.mul_im]
    ring
  rw [hA, hB, ifft_three, w3_sq, show w3 ^ 4 = w3 from w3_pow4]
  norm_num [List.cons.injEq, Complex.ext_iff, w3, v3, Complex.mul_re, Complex.mul_im] <;>
    ring_nf <;> norm_num [Real.sq_sqrt]

lemma peakIndexR2 : peakIndex [0, 1 / 3, 1 / 6] = 1 := by
  rw [peakIndex, hilbertR2]
  show argmax [Complex.abs ⟨0, -(Real.sqrt 3 / 18)⟩, Complex.abs ⟨1 / 3, -(Real.sqrt 3 / 18)⟩,
    Complex.abs ⟨1 / 6, Real.sqrt 3 / 9⟩] = 1
  apply argmax_three_mid
  · apply abs_le_abs_of_normSq
    simp only [Complex.normSq_mk]
    ring_nf
    norm_num [Real.sq_sqrt]
  · rw [not_le]
    apply abs_lt_abs_of_normSq
    simp only [Complex.normSq_mk]
    ring_nf
    norm_num [Real.sq_sqrt]

lemma peakValueR2 : peakValue [0, 1 / 3, 1 / 6] = ⟨1 / 3, -(Real.sqrt 3 / 18)⟩ := by
  rw [peakValue, peakIndexR2, hilbertR2]
  rfl

lemma iterAmplitudeB1 :
    iterAmplitude residueB = Complex.abs (⟨1 / 3, -(Real.sqrt 3 / 18)⟩ : ℂ) := by
  rw [iterAmplitude, r2tB, peakValueR2]

lemma absPB : Complex.abs pB = Real.sqrt (13 / 12) := by
  rw [Complex.abs_apply]
  congr 1
  simp only [Complex.normSq_mk, pB]
  ring_nf
  norm_num [Real.sq_sqrt]

lemma absQB : Complex.abs (⟨1 / 3, -(Real.sqrt 3 / 18)⟩ : ℂ) = Real.sqrt (13 / 108) := by
  rw [Complex.abs_apply]
  congr 1
  simp only [Complex.normSq_mk]
  ring_nf
  norm_num [Real.sq_sqrt]

/-- The second iteration's amplitude fails the stopping test. -/
lemma stopB : ¬ (iterAmplitude residueB > 2 / 5 * Complex.abs pB) := by
  rw [not_lt, iterAmplitudeB1, absPB, absQB]
  have h1 : (2 / 5 : ℝ) * Real.sqrt (13 / 12) = Real.sqrt ((2 / 5) ^ 2 * (13 / 12)) := by
    rw [Real.sqrt_mul (by positivity), Real.sqrt_sq (by norm_num)]
  rw [h1]
  apply Real.sqrt_le_sqrt
  norm_num

/-- The length-3 run returns exactly one component: the first iteration's. -/
lemma runB_result :
    resultComponents (extract_CLEAN [1, 1 / 2, 0] [1, 0, 0] 1 (2 / 5) 2) =
      [ifft [pB, pB, (starRingEnd ℂ) pB]] := by
  have hc0 : (initState ([1, 1 / 2, 0] : List ℝ)).amplitude >
      (mkCtx [1, 0, 0] 1 (2 / 5)).threshold *
        (initState ([1, 1 / 2, 0] : List ℝ)).amp_max := by
    show (1 : ℝ) > 2 / 5 * 2
    norm_num
  have hPpos : 0 < Complex.abs pB := by
    apply AbsoluteValue.pos
    intro h
    rw [Complex.ext_iff] at h
    simp [pB] at h
  have hc1 : stateB1.amplitude > (mkCtx [1, 0, 0] 1 (2 / 5)).threshold * stateB1.amp_max := by
    show Complex.abs pB > 2 / 5 * Complex.abs pB
    linarith
  have hω3 : (mkCtx [1, 0, 0] 1 (2 / 5)).omega.length =
      (mkCtx [1, 0, 0] 1 (2 / 5)).original_spectrum.length := by
    rw [ctxB_omega, ctxB_spectrum]
    rfl
  have hL3 : 1 ≤ (mkCtx [1, 0, 0] 1 (2 / 5)).original_spectrum.length := by
    rw [ctxB_spectrum]
    norm_num
  have hreclen : (iterReconstructed (mkCtx [1, 0, 0] 1 (2 / 5)) stateB1.residue).length
      = 3 := by
    rw [iterReconstructed, reconstructSpectrum_length _ _ _ _ _ hω3 hL3, ctxB_spectrum]
    rfl
  have hlen2 : stateB1.residue.length =
      (iterReconstructed (mkCtx [1, 0, 0] 1 (2 / 5)) stateB1.residue).length := by
    rw [hreclen]
    rfl
  have hbs2 : broadcastSub stateB1.residue
      (iterReconstructed (mkCtx [1, 0, 0] 1 (2 / 5)) stateB1.residue) =
      some (List.zipWith (· - ·) stateB1.residue
        (iterReconstructed (mkCtx [1, 0, 0] 1 (2 / 5)) stateB1.residue)) := by
    unfold broadcastSub
    rw [if_pos hlen2]
  have hb2 : cleanBody (mkCtx [1, 0, 0] 1 (2 / 5)) stateB1 = .ok
      { amplitudes := stateB1.amplitudes ++ [iterAmplitude stateB1.residue]
        delays := stateB1.delays ++ [iterDelay (mkCtx [1, 0, 0] 1 (2 / 5)) stateB1.residue]
        phases := stateB1.phases ++ [iterPhase (mkCtx [1, 0, 0] 1 (2 / 5)) stateB1.residue]
        components := stateB1.components ++
          [ifft (iterReconstructed (mkCtx [1, 0, 0] 1 (2 / 5)) stateB1.residue)]
        residue := List.zipWith (· - ·) stateB1.residue
          (iterReconstructed (mkCtx [1, 0, 0] 1 (2 / 5)) stateB1.residue)
        amplitude := iterAmplitude stateB1.residue
        amp_max := if stateB1.amplitudes.length = 0 then iterAmplitude stateB1.residue
                   else stateB1.amp_max
        iterations := stateB1.iterations + 1 } := by
    rw [cleanBody_eq, hbs2]
  have hstop : ¬ (iterAmplitude stateB1.residue >
      (mkCtx [1, 0, 0] 1 (2 / 5)).threshold *
        (if stateB1.amplitudes.length = 0 then iterAmplitude stateB1.residue
         else stateB1.amp_max)) := by
    rw [if_neg (by simp [stateB1] : ¬ (stateB1.amplitudes.length = 0))]
    show ¬ (iterAmplitude residueB > 2 / 5 * Complex.abs pB)
    exact stopB
  rw [extract_CLEAN, extract_CLEAN_trace, show (2 : ℕ) = 1 + 1 from rfl,
    cleanLoop_succ_of_cond _ _ _ _ hc0 runB_body1,
    show (1 : ℕ) = 0 + 1 from rfl,
    cleanLoop_succ_of_cond _ _ _ _ hc1 hb2,
    cleanLoop_stop _ _ _ hstop]
  simp [resultComponents, stateB1]

/-- C6 counterexample: on the valid input measured `[1, 1/2, 0]`,
original `[1, 0, 0]`, `delta_t = 1 > 0`, `threshold = 2/5 > 0`, the single
returned component has imaginary part `-√3/18 ≠ 0` at sample 0 — in exact
arithmetic the reconstructed spectrum's inverse transform is NOT
real-valued (its DC bin `pB = 1 - (√3/6)i` is not real). -/
theorem c6_counterexample :
    ([1, 1 / 2, 0] : List ℝ).length = ([1, 0, 0] : List ℝ).length ∧ (0 : ℝ) < 1 ∧
    (0 : ℝ) < 2 / 5 ∧
    (((resultComponents (extract_CLEAN [1, 1 / 2, 0] [1, 0, 0] 1 (2 / 5) 2)).getD 0
      []).getD 0 0).im ≠ 0 := by
  refine ⟨rfl, one_pos, by norm_num, ?_⟩
  rw [runB_result]
  show ((ifft [pB, pB, (starRingEnd ℂ) pB]).getD 0 0).im ≠ 0
  rw [ifft_three]
  show ((3 : ℂ)⁻¹ * (pB + pB + (starRingEnd ℂ) pB)).im ≠ 0
  have hs3 : 0 < Real.sqrt 3 := Real.sqrt_pos.mpr (by norm_num)
  norm_num [pB, Complex.mul_im, Complex.add_im, Complex.add_re, Complex.conj_im,
    Complex.conj_re]

end Clean
